import Mathlib

/-!
# The `hit` command-line tool (contrib/hit/main.cc)

A shallow embedding of the argument parser, the duplicate-parameter walker and
the `find`, `validate`, `format`, `merge`, `diff`, `common` and `subtract`
subcommands, followed by theorems about them.

Conventions of the embedding:

* `std::string` is `String`; `s[0]` on an empty string is the NUL character.
* `std::map<std::string, V>` is an association list kept in key order
  (`StrMap V`), so that iterating the list is iterating the map.
* `argv` is a `List String`; the loop index `i` of the source is the number of
  arguments already dropped from the front of the list.
* `std::cout`, `std::cerr`, `std::cin` and the files on disk are the fields of
  a `World` value that is threaded through every subcommand.
* An exception that leaves a subcommand, and undefined behaviour (a null
  dereference, a read of `argv[argc]`), are outcomes of their own.
* The `hit` library (parse.h, braceexpr.h) is not part of the translated
  sources.  The tree type and the walkers are modelled from the specification;
  parsing, exploding, merging, rendering, finding and formatting are
  parameters (`Lib`).
-/

namespace Hit

/-! ## Strings and maps -/

/-- First byte of a string as `s[0]` reads it: NUL when the string is empty. -/
def char0 (s : String) : Char := s.data.headD (Char.ofNat 0)

/-- The C++ `s.substr(1)`. -/
def substr1 (s : String) : String := String.mk (s.data.drop 1)

/-- Key order of `std::map<std::string, V>` (lexicographic). -/
def keyLt (a b : String) : Bool := decide (a.data < b.data)

/-- A `std::map<std::string, V>`: its entries in iteration order. -/
abbrev StrMap (V : Type) := List (String × V)

namespace StrMap

variable {V : Type}

/-- The keys, in iteration order. -/
def keys (m : StrMap V) : List String := m.map Prod.fst

/-- The C++ `m.find(k)`: the mapped value, or `none` for `m.end()`. -/
def find : StrMap V → String → Option V
  | [], _ => none
  | (k', v) :: rest, k => if k' = k then some v else find rest k

/-- The C++ `m.count(k)`. -/
def count (m : StrMap V) (k : String) : Nat := if (m.find k).isSome then 1 else 0

/-- Write through a reference `auto & x = m[k]` to an entry that exists. -/
def modify (k : String) (f : V → V) : StrMap V → StrMap V
  | [] => []
  | (k', v) :: rest => if k' = k then (k', f v) :: rest else (k', v) :: modify k f rest

/-- A new entry put at its place in key order. -/
def insertNew (k : String) (v : V) : StrMap V → StrMap V
  | [] => [(k, v)]
  | (k', v') :: rest =>
    if keyLt k k' then (k, v) :: (k', v') :: rest else (k', v') :: insertNew k v rest

/-- The C++ `m[k] = v`: overwrite the entry of `k`, or insert one when there is none. -/
def assign (k : String) (v : V) (m : StrMap V) : StrMap V :=
  if (m.find k).isSome then m.modify k (fun _ => v) else m.insertNew k v

end StrMap

/-! ## Flags (main.cc lines 68-120) -/

/-- The source's `struct Flag`. -/
structure Flag where
  arg : Bool
  vec : Bool
  have_ : Bool
  val : String
  vec_val : List String
  help : String
deriving DecidableEq, Repr

/-- The source's `class Flags`. -/
structure Flags where
  flags : StrMap Flag
  usage_msg : String
deriving DecidableEq, Repr

namespace Flags

/-- The constructor `Flags(usage)`. -/
def new (usage : String) : Flags := { flags := [], usage_msg := usage }

/-- The default `"__NONE__"` of the third parameter of `Flags::add`. -/
def NONE : String := "__NONE__"

/-- The source's `Flags::add(name, help, def)`. -/
def add (fl : Flags) (name help dflt : String) : Flags :=
  if dflt = NONE then
    { fl with flags := fl.flags.assign name ⟨false, false, false, "", [], help⟩ }
  else
    { fl with flags := fl.flags.assign name ⟨true, false, false, dflt, [], help⟩ }

/-- The source's `Flags::addVector(name, help)`. -/
def addVector (fl : Flags) (name help : String) : Flags :=
  { fl with flags := fl.flags.assign name ⟨false, true, false, "", [], help⟩ }

/-- The source's `Flags::have(flag)`. -/
def have_ (fl : Flags) (flag : String) : Bool :=
  decide (fl.flags.count flag > 0) && ((fl.flags.find flag).map Flag.have_).getD false

/-- The source's `Flags::val(flag)` (a missing flag reads as a default-constructed one). -/
def val (fl : Flags) (flag : String) : String :=
  ((fl.flags.find flag).map Flag.val).getD ""

/-- The source's `Flags::vecVal(flag)`. -/
def vecVal (fl : Flags) (flag : String) : List String :=
  ((fl.flags.find flag).map Flag.vec_val).getD []

/-- Write through the reference `auto & flag = flags.flags[flagname]`. -/
def update (fl : Flags) (flagname : String) (f : Flag → Flag) : Flags :=
  { fl with flags := fl.flags.modify flagname f }

/-- One line of `Flags::usage()`. -/
def usageLine (name : String) (flag : Flag) : String :=
  if flag.arg then
    "-" ++ name ++ " <arg>    " ++ flag.help ++ " (default='" ++ flag.val ++ "')\n"
  else if flag.vec then
    "-" ++ name ++ "    " ++ flag.help ++ "\n"
  else
    "-" ++ name ++ "    " ++ flag.help ++ " (default=false)\n"

/-- The source's `Flags::usage()`. -/
def usage (fl : Flags) : String :=
  fl.flags.foldl (fun ss pair => ss ++ usageLine pair.1 pair.2) (fl.usage_msg ++ "\n")

end Flags

/-! ## parseOpts (main.cc lines 122-160) -/

/-- How `parseOpts` can fail to return. -/
inductive ParseError where
  /-- The `throw std::runtime_error("unknown flag '" + arg)`; the payload is `what()`. -/
  | unknownFlag (what : String)
  /-- The read `flag.val = argv[i]` with `i = argc`, past the last argument. -/
  | argvPastEnd
  /-- The iteration bound of the embedding ran out (never happens, see `parseOpts_ne_outOfFuel`). -/
  | outOfFuel
deriving DecidableEq, Repr

/-- The name `parseOpts` looks up for a dash-prefixed argument (lines 134-136):
`arg.substr(1)`, without its first character when that is a second dash. -/
def flagName (arg : String) : String :=
  let flagname := substr1 arg
  if char0 flagname = '-' then substr1 flagname else flagname

/-- The loop `while (i < argc - 1 && argv[i + 1][0] != '-')` of a vector flag.
The argument is `argv[i+1 ..]`; the result is the values pushed and the
arguments left after the last one taken. -/
def vecLoop : List String → List String × List String
  | [] => ([], [])
  | next :: rest =>
    if char0 next ≠ '-' then
      let r := vecLoop rest
      (next :: r.1, r.2)
    else ([], next :: rest)

/-- The `for (; i < argc; i++)` loop of `parseOpts` followed by the copy of the
positionals.  The list is `argv[i ..]`; `fuel` bounds the iterations. -/
def parseLoop : Nat → Flags → List String → Except ParseError (Flags × List String)
  | 0, _, _ => .error .outOfFuel
  | _ + 1, flags, [] => .ok (flags, [])
  | fuel + 1, flags, arg :: rest =>
    if char0 arg ≠ '-' then .ok (flags, arg :: rest)
    else if arg.length = 1 then .ok (flags, ["-"])
    else
      let flagname := flagName arg
      match flags.flags.find flagname with
      | none => .error (.unknownFlag ("unknown flag '" ++ arg))
      | some flag =>
        if flag.arg then
          match rest with
          | [] => .error .argvPastEnd
          | v :: rest' =>
            parseLoop fuel (flags.update flagname (fun f => { f with have_ := true, val := v })) rest'
        else if flag.vec then
          let r := vecLoop rest
          parseLoop fuel
            (flags.update flagname (fun f => { f with have_ := true, vec_val := f.vec_val ++ r.1 }))
            r.2
        else
          parseLoop fuel (flags.update flagname (fun f => { f with have_ := true })) rest

/-- The source's `parseOpts(argc, argv, flags)`: the updated flags and the positionals. -/
def parseOpts (argv : List String) (flags : Flags) : Except ParseError (Flags × List String) :=
  parseLoop (argv.length + 1) flags argv

/-! ## The indices of argv that parseOpts reads -/

/-- The indices of `argv` the loop `while (i < argc - 1 && argv[i + 1][0] != '-')`
reads, for a vector flag at index `i` followed by the arguments given: the
look-ahead `argv[i + 1]` whenever `i < argc - 1`, and `argv[i]` after the
`i++` of the body. -/
def vecLoopReads : Nat → List String → List Nat
  | _, [] => []
  | i, next :: rest =>
    if char0 next ≠ '-' then (i + 1) :: (i + 1) :: vecLoopReads (i + 1) rest
    else [i + 1]

/-- The indices of `argv` that `parseOpts` reads from loop index `i` on, in
order; the list is `argv[i ..]` and `fuel` bounds the iterations as in
`parseLoop`.  Every `argv[...]` of lines 128, 146, 149, 152 and 158 is listed. -/
def parseLoopReads : Nat → Nat → Flags → List String → List Nat
  | 0, _, _, _ => []
  | _ + 1, _, _, [] => []
  | fuel + 1, i, flags, arg :: rest =>
    if char0 arg ≠ '-' then i :: List.range' i (rest.length + 1)
    else if arg.length = 1 then [i]
    else
      let flagname := flagName arg
      match flags.flags.find flagname with
      | none => [i]
      | some flag =>
        if flag.arg then
          match rest with
          | [] => [i, i + 1]
          | v :: rest' =>
            i :: (i + 1) :: parseLoopReads fuel (i + 2)
              (flags.update flagname (fun f => { f with have_ := true, val := v })) rest'
        else if flag.vec then
          let r := vecLoop rest
          i :: (vecLoopReads i rest ++ parseLoopReads fuel (i + 1 + r.1.length)
            (flags.update flagname (fun f => { f with have_ := true, vec_val := f.vec_val ++ r.1 }))
            r.2)
        else
          i :: parseLoopReads fuel (i + 1)
            (flags.update flagname (fun f => { f with have_ := true })) rest

/-- The indices of `argv` that `parseOpts(argc, argv, flags)` reads, in order. -/
def parseOptsReads (argv : List String) (flags : Flags) : List Nat :=
  parseLoopReads (argv.length + 1) 0 flags argv

/-! ## The tree and its walkers (hit library, modelled from the specification) -/

/-- The kinds of node, also used as the filter of a walk (`hit::NodeType`). -/
inductive NodeType where
  | All
  | Section
  | Comment
  | Field
  | Blank
deriving DecidableEq, Repr

/-- Modelled from the spec: `hit::Node`, which parse.h declares.  A tagged
variant with four kinds; a Section owns an ordered list of children, a Field
carries its value (as `strVal()` returns it), and Sections and Fields carry
their source location. -/
inductive Node where
  | section (name : String) (filename : String) (line : Nat) (children : List Node)
  | field (name : String) (val : String) (filename : String) (line : Nat)
  | comment (text : String)
  | blank
deriving Repr

/-- What the CLI reads through a `hit::Node *` handed to a walker or stored in
a parameter map: `type()`, `fullpath()`, `strVal()`, `filename()`, `line()`. -/
structure NodeRef where
  type : NodeType
  fullpath : String
  strVal : String
  filename : String
  line : Nat
deriving DecidableEq, Repr

/-- Modelled from the spec: the fullpath of a node named `name` under a parent
whose fullpath is `parent` (slash-joined; the root has the empty path). -/
def joinPath (parent name : String) : String :=
  if parent = "" then name else parent ++ "/" ++ name

/-- Whether a walk filtered by `t` calls the walker on a node of kind `k`. -/
def NodeType.admits (t k : NodeType) : Bool := t = NodeType.All || t = k

mutual
/-- Modelled from the spec: `Node::walk(walker, filter)`, the pre-order
traversal, as the sequence of nodes the walker is called on.  `parent` is the
fullpath of the parent of the node. -/
def Node.walk (t : NodeType) : String → Node → List NodeRef
  | parent, .section name filename line children =>
    (if t.admits .Section then [⟨.Section, joinPath parent name, "", filename, line⟩] else [])
      ++ Node.walkList t (joinPath parent name) children
  | parent, .field name val filename line =>
    if t.admits .Field then [⟨.Field, joinPath parent name, val, filename, line⟩] else []
  | _, .comment _ => []
  | _, .blank => []
/-- The walk of the children of a node whose fullpath is `parent`. -/
def Node.walkList (t : NodeType) : String → List Node → List NodeRef
  | _, [] => []
  | parent, c :: cs => Node.walk t parent c ++ Node.walkList t parent cs
end

/-- Modelled from the spec: `Node::clone(absolute_path = true)` of a Field:
the copy is named by the fullpath of the original. -/
def NodeRef.cloneAbsolute (n : NodeRef) : Node :=
  .field n.fullpath n.strVal n.filename n.line

/-- The `hit::GatherParamWalker::ParamMap`: fullpath to Field. -/
abbrev ParamMap := StrMap NodeRef

/-- The shape of a gathered parameter map: one entry per key (it is a
`std::map`), each Field stored under its own fullpath. -/
def ParamMap.WF (m : ParamMap) : Prop := m.keys.Nodup ∧ ∀ e ∈ m, e.2.fullpath = e.1

instance (m : ParamMap) : Decidable m.WF :=
  inferInstanceAs (Decidable (m.keys.Nodup ∧ ∀ e ∈ m, e.2.fullpath = e.1))

/-- Modelled from the spec: one call of `GatherParamWalker::walk`, which
records a Field under its fullpath (the last write wins). -/
def GatherParamWalker.walk (m : ParamMap) (n : NodeRef) : ParamMap :=
  if n.type = NodeType.Field then m.assign n.fullpath n else m

/-- The map a `GatherParamWalker` over an empty map holds after `root->walk(&walker, t)`. -/
def gatherParams (t : NodeType) (root : Node) : ParamMap :=
  (root.walk t "").foldl GatherParamWalker.walk []

mutual
/-- Modelled from the spec: the effect of a `RemoveParamWalker` over `m` on a
node under `parent`: a Field whose fullpath is a key of `m` is deleted. -/
def RemoveParamWalker.node (m : ParamMap) : String → Node → List Node
  | parent, .section name filename line children =>
    [.section name filename line (RemoveParamWalker.nodes m (joinPath parent name) children)]
  | parent, .field name val filename line =>
    if m.count (joinPath parent name) > 0 then [] else [.field name val filename line]
  | _, .comment text => [.comment text]
  | _, .blank => [.blank]
/-- The effect of a `RemoveParamWalker` on the children of a node. -/
def RemoveParamWalker.nodes (m : ParamMap) : String → List Node → List Node
  | _, [] => []
  | parent, c :: cs => RemoveParamWalker.node m parent c ++ RemoveParamWalker.nodes m parent cs
end

mutual
/-- Whether a node is, or contains, a Field or a Comment. -/
def Node.hasContent : Node → Bool
  | .section _ _ _ children => Node.anyContent children
  | .field _ _ _ _ => true
  | .comment _ => true
  | .blank => false
/-- Whether some node of the list is, or contains, a Field or a Comment. -/
def Node.anyContent : List Node → Bool
  | [] => false
  | c :: cs => Node.hasContent c || Node.anyContent cs
end

mutual
/-- Modelled from the spec: the effect of a `RemoveEmptySectionWalker` on a
node: a Section without Field or Comment descendants is deleted. -/
def RemoveEmptySectionWalker.node : Node → List Node
  | .section name filename line children =>
    if Node.anyContent children then
      [.section name filename line (RemoveEmptySectionWalker.nodes children)]
    else []
  | .field name val filename line => [.field name val filename line]
  | .comment text => [.comment text]
  | .blank => [.blank]
/-- The effect of a `RemoveEmptySectionWalker` on the children of a node. -/
def RemoveEmptySectionWalker.nodes : List Node → List Node
  | [] => []
  | c :: cs => RemoveEmptySectionWalker.node c ++ RemoveEmptySectionWalker.nodes cs
end

/-- The receiver of a walk with its children replaced; the receiver itself
(the root the caller owns) stays. -/
def Node.withChildren (f : String → List Node → List Node) : Node → Node
  | .section name filename line children =>
    .section name filename line (f (joinPath "" name) children)
  | other => other

/-- The tree after `root->walk(&w)` for a `RemoveParamWalker w(m)`. -/
def removeParams (m : ParamMap) (root : Node) : Node :=
  root.withChildren (RemoveParamWalker.nodes m)

/-- The tree after `root->walk(&w)` for a `RemoveEmptySectionWalker w`. -/
def removeEmptySections (root : Node) : Node :=
  root.withChildren (fun _ cs => RemoveEmptySectionWalker.nodes cs)

/-! ## DupParamWalker (main.cc lines 162-189) -/

/-- The source's `class DupParamWalker`; `_duplicates` is a `std::set`, of
which only membership is read. -/
structure DupParamWalker where
  errors : List String
  _duplicates : List String
  _have : StrMap NodeRef

/-- The constructor `DupParamWalker()`. -/
def DupParamWalker.new : DupParamWalker := ⟨[], [], []⟩

/-- The source's `DupParamWalker::walk(fullpath, nodepath, n)`.  The absent
`hit::errormsg(node, text...)` is the parameter `errormsg`, applied to the node
and the concatenated text.  The `match` is the test `_have.count(fullpath) > 0`
together with the read `existing = _have[fullpath]`. -/
def DupParamWalker.walk (errormsg : NodeRef → String → String) (w : DupParamWalker)
    (fullpath : String) (n : NodeRef) : DupParamWalker :=
  let pfx := if n.type = NodeType.Field then "parameter" else "section"
  let w :=
    match w._have.find fullpath with
    | none => w
    | some existing =>
      let w :=
        if fullpath ∉ w._duplicates then
          { w with
            errors := w.errors ++
              [errormsg existing (pfx ++ " '" ++ fullpath ++ "' supplied multiple times")]
            _duplicates := fullpath :: w._duplicates }
        else w
      { w with
        errors := w.errors ++
          [errormsg n (pfx ++ " '" ++ fullpath ++ "' supplied multiple times")] }
  { w with _have := w._have.assign n.fullpath n }

/-- The walker after `root->walk(&w, t)`: one call per visited node, with the
fullpath of the node as first argument. -/
def DupParamWalker.run (errormsg : NodeRef → String → String) (visits : List NodeRef) :
    DupParamWalker :=
  visits.foldl (fun w n => w.walk errormsg n.fullpath n) DupParamWalker.new

/-! ## The errors of DupParamWalker as the specification words them -/

/-- The specification's prefix of a message reported against node `n`: by the kind of `n`. -/
def DupSpec.pfx (n : NodeRef) : String :=
  if n.type = NodeType.Field then "parameter" else "section"

/-- The specification's message reported against node `n`. -/
def DupSpec.message (errormsg : NodeRef → String → String) (n : NodeRef) : String :=
  errormsg n (DupSpec.pfx n ++ " '" ++ n.fullpath ++ "' supplied multiple times")

/-- The specification's errors for the visit of `n` after the visits `seen`:
none at the first occurrence of the fullpath, the error against the first node
and the error against `n` at the second, the error against `n` from the third on. -/
def DupSpec.errorsAt (errormsg : NodeRef → String → String) (seen : List NodeRef)
    (n : NodeRef) : List String :=
  match seen.filter (fun m => m.fullpath = n.fullpath) with
  | [] => []
  | [first] => [DupSpec.message errormsg first, DupSpec.message errormsg n]
  | _ :: _ :: _ => [DupSpec.message errormsg n]

/-- The specification's error list for the visits `visits` that follow the visits `seen`. -/
def DupSpec.errors (errormsg : NodeRef → String → String) :
    List NodeRef → List NodeRef → List String
  | _, [] => []
  | seen, n :: rest =>
    DupSpec.errorsAt errormsg seen n ++ DupSpec.errors errormsg (seen ++ [n]) rest

/-- The nodes the specification reports an error against at the visit of `n`
after the visits `seen`: none at the first occurrence of the fullpath, the first
node seen and then `n` at the second, `n` alone from the third on. -/
def DupSpec.reportsAt (seen : List NodeRef) (n : NodeRef) : List NodeRef :=
  match seen.filter (fun m => m.fullpath = n.fullpath) with
  | [] => []
  | [first] => [first, n]
  | _ :: _ :: _ => [n]

/-- The nodes the specification reports an error against, in the order of the
error list, for the visits `visits` that follow the visits `seen`. -/
def DupSpec.reports : List NodeRef → List NodeRef → List NodeRef
  | _, [] => []
  | seen, n :: rest => DupSpec.reportsAt seen n ++ DupSpec.reports (seen ++ [n]) rest

/-- What a `DupParamWalker` holds after the visits `seen`: under each fullpath
the node visited last, and as duplicates the fullpaths visited at least twice. -/
def DupInv (w : DupParamWalker) (seen : List NodeRef) : Prop :=
  (∀ p, w._have.find p = (seen.filter (fun m => m.fullpath = p)).getLast?) ∧
  (∀ p, p ∈ w._duplicates ↔ 2 ≤ (seen.filter (fun m => m.fullpath = p)).length)

/-! ## The world outside the program -/

/-- The streams and files a subcommand reads and writes. -/
structure World where
  /-- The content of each file; `none` when the file cannot be opened. -/
  fs : String → Option String
  /-- What is left to read on `std::cin`. -/
  cin : String
  cout : String
  cerr : String

namespace World

/-- The C++ `std::cout << s`. -/
def out (w : World) (s : String) : World := { w with cout := w.cout ++ s }

/-- The C++ `std::cerr << s`. -/
def err (w : World) (s : String) : World := { w with cerr := w.cerr ++ s }

/-- Whether `std::ifstream f(fname)` opens. -/
def canOpen (w : World) (fname : String) : Bool := (w.fs fname).isSome

/-- Everything `std::ifstream(fname)` yields; nothing when it failed to open. -/
def slurpFile (w : World) (fname : String) : String := (w.fs fname).getD ""

/-- Everything the stream `fname == "-" ? std::cin : std::ifstream(fname)`
yields, and the world after the read (standard input is used up). -/
def slurp (w : World) (fname : String) : String × World :=
  if fname = "-" then (w.cin, { w with cin := "" }) else (w.slurpFile fname, w)

/-- The file `fname` holding `content`. -/
def write (w : World) (fname content : String) : World :=
  { w with fs := fun f => if f = fname then some content else w.fs f }

end World

/-- How a subcommand ends. -/
inductive Outcome where
  /-- It returns `code`. -/
  | exit (code : Int) (w : World)
  /-- An exception with message `what` leaves it; nothing in main.cc catches it. -/
  | uncaught (what : String) (w : World)
  /-- It runs into undefined behaviour. -/
  | undefined (w : World)

/-- The exit code, when the subcommand returns. -/
def Outcome.code? : Outcome → Option Int
  | .exit code _ => some code
  | _ => none

/-- The world the subcommand leaves behind. -/
def Outcome.world : Outcome → World
  | .exit _ w => w
  | .uncaught _ w => w
  | .undefined w => w

/-- What a subcommand does when its call of `parseOpts` does not return: the
call is outside every `try`, so the exception propagates. -/
def Outcome.ofParseError (w : World) : ParseError → Outcome
  | .unknownFlag what => .uncaught what w
  | .argvPastEnd => .undefined w
  | .outOfFuel => .undefined w

/-- The functions of the `hit` library that main.cc calls and whose code is
not part of the translated sources. -/
structure Lib where
  /-- The absent `hit::parse(fname, input)`; an error is the `what()` of the exception thrown. -/
  parse : String → String → Except String Node
  /-- The absent `hit::explode(root)`. -/
  explode : Node → Node
  /-- The absent `hit::merge(from, into)`: the tree `into` afterwards. -/
  merge : Node → Node → Node
  /-- The absent `Node::render(indent)`. -/
  render : Nat → Node → String
  /-- The absent `Node::find(path)`. -/
  find : Node → String → Option NodeRef
  /-- The absent `hit::errormsg(node, text...)`. -/
  errormsg : NodeRef → String → String
  /-- The absent constructor `hit::Formatter(fname, input)`, which may throw. -/
  checkStyle : String → String → Except String Unit
  /-- The absent `Formatter::format(fname, input)`, for the default formatter
  (`none`) or the one built from a style file name and content. -/
  format : Option (String × String) → String → String → Except String String

/-! ## find (main.cc lines 191-238) -/

/-- The flags of `findParam`. -/
def findFlags : Flags :=
  (Flags.new ("hit find [flags] <parameter-path> <file>...\n  Specify '-' as a file name to accept "
      ++ "input from stdin.")).add "f" "only show file name" Flags.NONE

/-- The `for` loop of `findParam` over `positional[1 ..]`. -/
def findLoop (lib : Lib) (flags : Flags) (srcpath : String) :
    List String → Int → World → Int × World
  | [], ret, w => (ret, w)
  | fname :: rest, ret, w =>
    let r := w.slurp fname
    match lib.parse fname r.1 with
    | .error what => findLoop lib flags srcpath rest 1 (r.2.err (what ++ "\n"))
    | .ok root =>
      match lib.find root srcpath with
      | some n =>
        if flags.have_ "f" then
          findLoop lib flags srcpath rest ret (r.2.out (n.filename ++ "\n"))
        else
          findLoop lib flags srcpath rest ret
            (r.2.out (n.filename ++ ":" ++ toString n.line ++ "\n"))
      | none => findLoop lib flags srcpath rest ret r.2

/-- The source's `findParam(argc, argv)`. -/
def findParam (lib : Lib) (argv : List String) (w : World) : Outcome :=
  match parseOpts argv findFlags with
  | .error e => Outcome.ofParseError w e
  | .ok (flags, positional) =>
    match positional with
    | srcpath :: file :: files =>
      let r := findLoop lib flags srcpath (file :: files) 0 w
      .exit r.1 r.2
    | _ => .exit 1 (w.err flags.usage)

/-! ## format (main.cc lines 262-337) -/

/-- The flags of `format`. -/
def formatFlags : Flags :=
  ((((Flags.new
      "hit format [flags] <file>...\n  Specify '-' as a file name to accept input from stdin.").add
      "h" "print help" Flags.NONE).add
      "help" "print help" Flags.NONE).add
      "i" "modify file(s) inplace" Flags.NONE).add
      "style" "hit style file detailing format to use" ""

/-- The `for` loop of `format` over the positionals; `fmt` is the formatter. -/
def formatLoop (lib : Lib) (flags : Flags) (fmt : Option (String × String)) :
    List String → Int → World → Int × World
  | [], ret, w => (ret, w)
  | fname :: rest, ret, w =>
    if fname ≠ "-" ∧ !w.canOpen fname then
      (1, w.err ("Can't open '" ++ fname ++ "'\n"))
    else
      let r := w.slurp fname
      match lib.format fmt fname r.1 with
      | .ok fmted =>
        if flags.have_ "i" ∧ fname ≠ "-" then
          formatLoop lib flags fmt rest ret (r.2.write fname (fmted ++ "\n"))
        else
          formatLoop lib flags fmt rest ret (r.2.out fmted)
      | .error what => formatLoop lib flags fmt rest 1 (r.2.err (what ++ "\n"))

/-- The source's `format(argc, argv)`. -/
def format (lib : Lib) (argv : List String) (w : World) : Outcome :=
  match parseOpts argv formatFlags with
  | .error e => Outcome.ofParseError w e
  | .ok (flags, positional) =>
    if flags.have_ "h" || flags.have_ "help" then .exit 0 (w.out flags.usage)
    else if positional.length < 1 then .exit 1 (w.out flags.usage)
    else if flags.have_ "style" then
      match lib.checkStyle (flags.val "style") (w.slurpFile (flags.val "style")) with
      | .error what => .exit 1 (w.err ("invalid format style " ++ what ++ "\n"))
      | .ok _ =>
        let r := formatLoop lib flags
          (some (flags.val "style", w.slurpFile (flags.val "style"))) positional 0 w
        .exit r.1 r.2
    else
      let r := formatLoop lib flags none positional 0 w
      .exit r.1 r.2

/-! ## readMerged and merge (main.cc lines 339-409) -/

/-- The `for` loop of `readMerged`; `combined_root` is `none` for the null pointer.
An error is an exception of `hit::parse`, which `readMerged` does not catch. -/
def readMergedLoop (lib : Lib) :
    List String → Option Node → World → Except String (Option Node) × World
  | [], combined_root, w => (.ok combined_root, w)
  | input_filename :: rest, combined_root, w =>
    if !w.canOpen input_filename then
      (.ok none, w.err ("Can't open '" ++ input_filename ++ "'\n"))
    else
      match lib.parse input_filename (w.slurpFile input_filename) with
      | .error what => (.error what, w)
      | .ok root =>
        match combined_root with
        | none => readMergedLoop lib rest (some (lib.explode root)) w
        | some combined => readMergedLoop lib rest (some (lib.merge (lib.explode root) combined)) w

/-- The source's `readMerged(input_filenames)`. -/
def readMerged (lib : Lib) (input_filenames : List String) (w : World) :
    Except String (Option Node) × World :=
  readMergedLoop lib input_filenames none w

/-- The flags of `merge`. -/
def mergeFlags : Flags :=
  (((Flags.new ("hit merge [flags] -output outfile <file>...\n  Specify '-' as a file name to accept "
      ++ "input from stdin.")).add
      "h" "print help" Flags.NONE).add
      "help" "print help" Flags.NONE).add
      "output" "Output file" ""

/-- The `for` loop of `merge`; `root` is `none` for the null pointer.  An error
is an exception of `hit::parse`, which `merge` does not catch. -/
def mergeLoop (lib : Lib) : List String → Option Node → World → Except String (Option Node) × World
  | [], root, w => (.ok root, w)
  | fname :: rest, root, w =>
    let r := w.slurp fname
    match lib.parse fname r.1 with
    | .error what => (.error what, r.2)
    | .ok parsed =>
      match root with
      | some root => mergeLoop lib rest (some (lib.merge parsed root)) r.2
      | none => mergeLoop lib rest (some parsed) r.2

/-- The source's `merge(argc, argv)`.  Opening the output stream empties the
output file before the inputs are read. -/
def merge (lib : Lib) (argv : List String) (w : World) : Outcome :=
  match parseOpts argv mergeFlags with
  | .error e => Outcome.ofParseError w e
  | .ok (flags, positional) =>
    if flags.have_ "h" || flags.have_ "help" then .exit 0 (w.out flags.usage)
    else if positional.length < 1 || !flags.have_ "output" then .exit 1 (w.out flags.usage)
    else
      let r := mergeLoop lib positional none (w.write (flags.val "output") "")
      match r.1 with
      | .error what => .uncaught what r.2
      | .ok none => .undefined r.2
      | .ok (some root) => .exit 0 (r.2.write (flags.val "output") (lib.render 0 root))

/-! ## diff (main.cc lines 411-567) -/

/-- The flags of `diff`. -/
def diffFlags : Flags :=
  ((((((((Flags.new ("hit diff left.i right.i\nhit diff -left <files> -right <files>\n  Compare (merged) "
      ++ "inputs on the left with " ++ "(merged) inputs on the right.\n")).add
      "v" "verbose diff" Flags.NONE).add
      "C" "output color" Flags.NONE).add
      "color" "output color" Flags.NONE).add
      "common" "show common parts on bothe sides" Flags.NONE).add
      "h" "print help" Flags.NONE).add
      "help" "print help" Flags.NONE).addVector
      "left" "Left hand inputs").addVector
      "right" "Right hand inputs"

/-- The five terminal colour strings of `diff`. -/
structure Colors where
  color_red : String
  color_green : String
  color_blue : String
  color_yellow : String
  color_default : String
deriving DecidableEq, Repr

/-- The colour strings for a value of `use_color`. -/
def Colors.of (use_color : Bool) : Colors :=
  { color_red := if use_color then "\x1b[31m" else ""
    color_green := if use_color then "\x1b[32m" else ""
    color_blue := if use_color then "\x1b[34m" else ""
    color_yellow := if use_color then "\x1b[33m" else ""
    color_default := if use_color then "\x1b[39m" else "" }

/-- The C++ `s.size()`. -/
def size (s : String) : Nat := s.utf8ByteSize

/-- One statement `missing_right << ...` or `missing_left << ...`: the map entry it prints. -/
structure Missing where
  path : String
  node : NodeRef
deriving DecidableEq, Repr

/-- One statement `diff_val << ...`: the left entry and the right Field it prints. -/
structure Differing where
  path : String
  left : NodeRef
  right : NodeRef
deriving DecidableEq, Repr

/-- The text one statement `missing_right << ...` appends. -/
def Missing.strRight (c : Colors) (m : Missing) : String :=
  c.color_red ++ m.path ++ c.color_blue ++ " (" ++ m.node.filename ++ ":" ++ toString m.node.line
    ++ ")" ++ c.color_default ++ " is missing on the right.\n"

/-- The text one statement `missing_left << ...` appends. -/
def Missing.strLeft (c : Colors) (m : Missing) : String :=
  c.color_green ++ m.path ++ c.color_blue ++ " (" ++ m.node.filename ++ ":" ++ toString m.node.line
    ++ ")" ++ c.color_default ++ " is missing on the left.\n"

/-- The text one statement `diff_val << ...` appends. -/
def Differing.str (c : Colors) (d : Differing) : String :=
  "    " ++ c.color_yellow ++ d.path ++ c.color_blue ++ " (" ++ d.left.filename ++ ":"
    ++ toString d.left.line ++ ")" ++ c.color_default ++ " has differing values\n      '"
    ++ c.color_red ++ d.left.strVal ++ c.color_default ++ "' ->"
    ++ (if size d.left.strVal > 40 then "\n      '" else " '") ++ c.color_green
    ++ d.right.strVal ++ c.color_default ++ "'\n"

/-- The "verbose outputs" of `diff` (lines 480-485).  A string stream is the
list of the statements that wrote to it, in order; a root Section is the list
of its children. -/
structure DiffState where
  diff_val : List Differing
  missing_left : List Missing
  missing_right : List Missing
  missing_left_root : List Node
  missing_right_root : List Node
  common_root : List Node
deriving Repr

/-- The state before the two loops. -/
def DiffState.new : DiffState := ⟨[], [], [], [], [], []⟩

/-- The C++ `diff_val.str()`. -/
def DiffState.diffValStr (c : Colors) (st : DiffState) : String :=
  String.join (st.diff_val.map (Differing.str c))

/-- The C++ `missing_left.str()`. -/
def DiffState.missingLeftStr (c : Colors) (st : DiffState) : String :=
  String.join (st.missing_left.map (Missing.strLeft c))

/-- The C++ `missing_right.str()`. -/
def DiffState.missingRightStr (c : Colors) (st : DiffState) : String :=
  String.join (st.missing_right.map (Missing.strRight c))

/-- One iteration of the loop "params on left but not on right" (lines 488-510). -/
def diffLeftStep (right_params : ParamMap) (st : DiffState) (lparam : String × NodeRef) :
    DiffState :=
  match right_params.find lparam.1 with
  | none =>
    { st with
      missing_right := st.missing_right ++ [⟨lparam.1, lparam.2⟩]
      missing_right_root := st.missing_right_root ++ [lparam.2.cloneAbsolute] }
  | some it =>
    if lparam.2.strVal ≠ it.strVal then
      { st with diff_val := st.diff_val ++ [⟨lparam.1, lparam.2, it⟩] }
    else
      { st with common_root := st.common_root ++ [lparam.2.cloneAbsolute] }

/-- One iteration of the loop "params on right but not on left" (lines 513-520). -/
def diffRightStep (left_params : ParamMap) (st : DiffState) (rparam : String × NodeRef) :
    DiffState :=
  if left_params.count rparam.1 = 0 then
    { st with
      missing_left := st.missing_left ++ [⟨rparam.1, rparam.2⟩]
      missing_left_root := st.missing_left_root ++ [rparam.2.cloneAbsolute] }
  else st

/-- Lines 480-520 of `diff`: the verbose outputs after the two loops. -/
def diffParams (left_params right_params : ParamMap) : DiffState :=
  right_params.foldl (diffRightStep left_params)
    (left_params.foldl (diffLeftStep right_params) DiffState.new)

/-- The name of a node. -/
def Node.name : Node → String
  | .section name _ _ _ => name
  | .field name _ _ _ => name
  | .comment _ => ""
  | .blank => ""

/-- The paths `diff` reports as removed left -> right. -/
def DiffState.removed (st : DiffState) : List String := st.missing_right.map Missing.path

/-- The paths `diff` reports as added left -> right. -/
def DiffState.added (st : DiffState) : List String := st.missing_left.map Missing.path

/-- The paths `diff` reports as having differing values. -/
def DiffState.differing (st : DiffState) : List String := st.diff_val.map Differing.path

/-- The paths `diff` reports as common: the names of the children of `common_root`. -/
def DiffState.common (st : DiffState) : List String := st.common_root.map Node.name

/-- The "output report" of `diff` (lines 522-566): the exit code and the world. -/
def diffReport (lib : Lib) (c : Colors) (verbose common : Bool) (st : DiffState) (w : World) :
    Int × World :=
  if common then
    (0, (w.out "Common parameters:\n").out
      (lib.render 4 (lib.explode (.section "" "" 0 st.common_root)) ++ "\n\n"))
  else
    let w :=
      if size (st.missingRightStr c) ≠ 0 then
        let w := (w.out "Parameters removed left -> right:\n").out c.color_red
        let w :=
          if verbose then (w.out (st.missingRightStr c)).out "\n"
          else w.out (lib.render 4 (lib.explode (.section "" "" 0 st.missing_right_root)) ++ "\n\n")
        w.out c.color_default
      else w
    let w :=
      if size (st.missingLeftStr c) ≠ 0 then
        let w := (w.out "Parameters added left -> right:\n").out c.color_green
        let w :=
          if verbose then (w.out (st.missingLeftStr c)).out "\n"
          else w.out (lib.render 4 (lib.explode (.section "" "" 0 st.missing_left_root)) ++ "\n\n")
        w.out c.color_default
      else w
    let w :=
      if size (st.diffValStr c) ≠ 0 then
        w.out ("Parameters with differing values:\n\n" ++ st.diffValStr c ++ "\n\n")
      else w
    (if size (st.missingLeftStr c) + size (st.missingRightStr c) + size (st.diffValStr c) > 0
      then 1 else 0, w)

/-- The lines `"    " << file << '\n'` for each file. -/
def fileLines (files : List String) : String :=
  String.join (files.map (fun file => "    " ++ file ++ "\n"))

/-- The usage check of `diff` (lines 434-435). -/
def diffUsageError (flags : Flags) (positional : List String) : Bool :=
  flags.have_ "left" != flags.have_ "right"
    || (flags.have_ "left" && decide (positional.length > 0))
    || (!flags.have_ "left" && decide (positional.length ≠ 2))

/-- The `left_files` of `diff` (lines 450-451). -/
def diffLeftFiles (flags : Flags) (positional : List String) : List String :=
  if flags.have_ "left" then flags.vecVal "left" else [positional.getD 0 ""]

/-- The `right_files` of `diff` (lines 452-453). -/
def diffRightFiles (flags : Flags) (positional : List String) : List String :=
  if flags.have_ "right" then flags.vecVal "right" else [positional.getD 1 ""]

/-- The source's `diff(argc, argv)`. -/
def diff (lib : Lib) (argv : List String) (w : World) : Outcome :=
  match parseOpts argv diffFlags with
  | .error e => Outcome.ofParseError w e
  | .ok (flags, positional) =>
    if flags.have_ "h" || flags.have_ "help" then .exit 0 (w.out flags.usage)
    else if diffUsageError flags positional then .exit 1 (w.out flags.usage)
    else
      let use_color := flags.have_ "C"
      let c := Colors.of use_color
      let left_files := diffLeftFiles flags positional
      let right_files := diffRightFiles flags positional
      match readMerged lib left_files w with
      | (.error what, w) => .uncaught what w
      | (.ok left, w) =>
        match readMerged lib right_files w with
        | (.error what, w) => .uncaught what w
        | (.ok right, w) =>
          match left, right with
          | some left, some right =>
            let w := ((((w.out "Left hand side:\n").out (fileLines left_files)).out
              "\nRight hand side:\n").out (fileLines right_files)).out "\n"
            let left_params := gatherParams .Field left
            let right_params := gatherParams .Field right
            let r := diffReport lib c (flags.have_ "v") (flags.have_ "common")
              (diffParams left_params right_params) w
            .exit r.1 r.2
          | _, _ => .exit 1 w

/-! ## common (main.cc lines 569-613) -/

/-- The flags of `common`. -/
def commonFlags : Flags :=
  ((Flags.new "hit common <files>\n  Extract common parameters from all files.\n").add
      "h" "print help" Flags.NONE).add
      "help" "print help" Flags.NONE

/-- The loop `roots.emplace_back(readMerged(file))`; a root is `none` for a null pointer. -/
def commonRoots (lib : Lib) : List String → World → Except String (List (Option Node)) × World
  | [], w => (.ok [], w)
  | file :: rest, w =>
    match readMerged lib [file] w with
    | (.error what, w) => (.error what, w)
    | (.ok root, w) =>
      match commonRoots lib rest w with
      | (.error what, w) => (.error what, w)
      | (.ok roots, w) => (.ok (root :: roots), w)

/-- The inner loop of `common` (lines 596-603): the entries of `common_params`
that survive the comparison with `next_params`. -/
def commonErase (next_params : ParamMap) : ParamMap → ParamMap
  | [] => []
  | it1 :: rest =>
    match next_params.find it1.1 with
    | none => commonErase next_params rest
    | some it2 =>
      if it2.strVal ≠ it1.2.strVal then commonErase next_params rest
      else it1 :: commonErase next_params rest

/-- The outer loop of `common` (lines 590-604) over the maps gathered from `roots[1 ..]`. -/
def commonParams (common_params : ParamMap) (nexts : List ParamMap) : ParamMap :=
  nexts.foldl (fun common_params next_params => commonErase next_params common_params)
    common_params

/-- The list without its `none`s, when it has none. -/
def allSome : List (Option Node) → Option (List Node)
  | [] => some []
  | none :: _ => none
  | some r :: rest => (allSome rest).map (fun rs => r :: rs)

/-- The source's `common(argc, argv)`.  A file that cannot be opened leaves a
null root, which the walk dereferences. -/
def common (lib : Lib) (argv : List String) (w : World) : Outcome :=
  match parseOpts argv commonFlags with
  | .error e => Outcome.ofParseError w e
  | .ok (flags, positional) =>
    if flags.have_ "h" || flags.have_ "help" || decide (positional.length = 0) then
      .exit (if positional.length = 0 then 1 else 0) (w.out flags.usage)
    else
      match commonRoots lib positional w with
      | (.error what, w) => .uncaught what w
      | (.ok roots, w) =>
        match allSome roots with
        | some (root0 :: roots) =>
          let common_params :=
            commonParams (gatherParams .Field root0) (roots.map (gatherParams .Field))
          let common_root : Node :=
            .section "" "" 0 (common_params.map (fun param => param.2.cloneAbsolute))
          .exit 0 (w.out (lib.render 0 (lib.explode common_root) ++ "\n"))
        | _ => .undefined w

/-! ## subtract (main.cc lines 615-650) -/

/-- The flags of `subtract`. -/
def subtractFlags : Flags :=
  ((Flags.new ("hit subtract left.i right.i\n  Subtract left.i from right.i by removing all "
      ++ "parameters listed in left.i from right.i.\n")).add
      "h" "print help" Flags.NONE).add
      "help" "print help" Flags.NONE

/-- Lines 638-645 of `subtract`: the tree `right` after the three walks. -/
def subtractTrees (left right : Node) : Node :=
  removeEmptySections (removeParams (gatherParams .Field left) right)

/-- The source's `subtract(argc, argv)`. -/
def subtract (lib : Lib) (argv : List String) (w : World) : Outcome :=
  match parseOpts argv subtractFlags with
  | .error e => Outcome.ofParseError w e
  | .ok (flags, positional) =>
    if flags.have_ "h" || flags.have_ "help" || decide (positional.length ≠ 2) then
      .exit (if positional.length ≠ 2 then 1 else 0) (w.out flags.usage)
    else
      match readMerged lib [positional.getD 0 ""] w with
      | (.error what, w) => .uncaught what w
      | (.ok left, w) =>
        match readMerged lib [positional.getD 1 ""] w with
        | (.error what, w) => .uncaught what w
        | (.ok right, w) =>
          match left, right with
          | some left, some right =>
            let w := w.err ("Subtracting:\n    " ++ positional.getD 0 "" ++ "\nfrom:\n    "
              ++ positional.getD 1 "" ++ "\n")
            .exit 0 (w.out (lib.render 0 (subtractTrees left right)))
          | _, _ => .exit 1 w

/-! ## validate (main.cc lines 652-687) -/

/-- The `for` loop of `validate` over the arguments. -/
def validateLoop (lib : Lib) : List String → Int → World → Int × World
  | [], ret, w => (ret, w)
  | fname :: rest, ret, w =>
    let r := w.slurp fname
    match lib.parse fname r.1 with
    | .error what => validateLoop lib rest 1 (r.2.out (what ++ "\n"))
    | .ok root =>
      let dw := DupParamWalker.run lib.errormsg (root.walk .Field "")
      validateLoop lib rest ret
        (r.2.out (String.join (dw.errors.map (fun msg => msg ++ "\n"))))

/-- The source's `validate(argc, argv)`. -/
def validate (lib : Lib) (argv : List String) (w : World) : Outcome :=
  if argv.length < 1 then
    .exit 1 (w.err "please pass in an input file argument (or pass '-' to validate stdin).\n")
  else
    let r := validateLoop lib argv 0 w
    .exit r.1 r.2

/-! ## The subcommands that parse their arguments with parseOpts -/

/-- The six subcommands whose first statement after building the flags is a call of `parseOpts`. -/
inductive Subcommand where
  | find
  | format
  | merge
  | diff
  | common
  | subtract
deriving DecidableEq, Repr

/-- The flags a subcommand registers before it calls `parseOpts`. -/
def Subcommand.flags : Subcommand → Flags
  | .find => findFlags
  | .format => formatFlags
  | .merge => mergeFlags
  | .diff => diffFlags
  | .common => commonFlags
  | .subtract => subtractFlags

/-- The function `main` dispatches to for a subcommand. -/
def Subcommand.run : Subcommand → Lib → List String → World → Outcome
  | .find => findParam
  | .format => Hit.format
  | .merge => Hit.merge
  | .diff => Hit.diff
  | .common => Hit.common
  | .subtract => Hit.subtract

/-! ## Sample inputs -/

/-- The document `p = 1`, `q = 1` as `hit::parse` builds it for file `fname`. -/
def sampleLeftTree (fname : String) : Node :=
  .section "" fname 0 [.field "p" "1" fname 1, .field "q" "1" fname 2]

/-- The document `p = 2`, `r = 1` as `hit::parse` builds it for file `fname`. -/
def sampleRightTree (fname : String) : Node :=
  .section "" fname 0 [.field "p" "2" fname 1, .field "r" "1" fname 2]

/-- The document of the validation scenario: section `x` twice, each with a parameter `p`. -/
def sampleDupTree (fname : String) : Node :=
  .section "" fname 0
    [.section "x" fname 1 [.field "p" "1" fname 2], .section "x" fname 4 [.field "p" "2" fname 5]]

/-- The document with a Section `a` (line 1) and a parameter `a` (line 3) at the top level. -/
def sampleMixedTree (fname : String) : Node :=
  .section "" fname 0 [.section "a" fname 1 [], .field "a" "1" fname 3]

mutual
/-- A plain renderer for the samples: one line per Field, Sections bracketed. -/
def sampleRender (indent : Nat) : Node → String
  | .section name _ _ children =>
    if name = "" then sampleRenderList indent children
    else String.mk (List.replicate indent ' ') ++ "[" ++ name ++ "]\n"
      ++ sampleRenderList (indent + 2) children
      ++ String.mk (List.replicate indent ' ') ++ "[]\n"
  | .field name val _ _ => String.mk (List.replicate indent ' ') ++ name ++ " = " ++ val ++ "\n"
  | .comment text => String.mk (List.replicate indent ' ') ++ text ++ "\n"
  | .blank => "\n"
/-- The renderer on a list of children. -/
def sampleRenderList (indent : Nat) : List Node → String
  | [] => ""
  | c :: cs => sampleRender indent c ++ sampleRenderList indent cs
end

/-- A library for the samples: `parse` knows the three sample documents and
rejects everything else, `explode` and `merge` have nothing to do on them. -/
def sampleLib : Lib :=
  { parse := fun fname input =>
      if input = "p = 1\nq = 1\n" then .ok (sampleLeftTree fname)
      else if input = "p = 2\nr = 1\n" then .ok (sampleRightTree fname)
      else if input = "[x]\n  p = 1\n[]\n[x]\n  p = 2\n[]\n" then .ok (sampleDupTree fname)
      else .error (fname ++ ":1:1: syntax error")
    explode := fun root => root
    merge := fun _ into => into
    render := sampleRender
    find := fun _ _ => none
    errormsg := fun n text => n.filename ++ ":" ++ toString n.line ++ ": " ++ text
    checkStyle := fun _ _ => .ok ()
    format := fun _ _ input => .ok input }

/-- A world with the three sample documents on disk and nothing on the streams. -/
def sampleWorld : World :=
  { fs := fun fname =>
      if fname = "left.i" then some "p = 1\nq = 1\n"
      else if fname = "right.i" then some "p = 2\nr = 1\n"
      else if fname = "dup.i" then some "[x]\n  p = 1\n[]\n[x]\n  p = 2\n[]\n"
      else none
    cin := ""
    cout := ""
    cerr := "" }

/-- The left map of the scenario `diff left=[p=1, q=1] right=[p=2, r=1]`. -/
def sampleLeft : ParamMap :=
  [("p", ⟨.Field, "p", "1", "left.i", 1⟩), ("q", ⟨.Field, "q", "1", "left.i", 2⟩)]

/-- The right map of the scenario `diff left=[p=1, q=1] right=[p=2, r=1]`. -/
def sampleRight : ParamMap :=
  [("p", ⟨.Field, "p", "2", "right.i", 1⟩), ("r", ⟨.Field, "r", "1", "right.i", 2⟩)]

/-! # Theorems -/

/-! ## Maps -/

namespace StrMap
variable {V : Type}

theorem find_eq_none_iff (m : StrMap V) (k : String) : m.find k = none ↔ k ∉ m.keys := by
  induction m with
  | nil => simp [find, keys]
  | cons e rest ih =>
    obtain ⟨k', v⟩ := e
    by_cases h : k' = k
    · simp [find, keys, h]
    · have h' : ¬ k = k' := fun h2 => h h2.symm
      simp only [find, h, if_false, ih, keys, List.map_cons, List.mem_cons, h', false_or]

theorem find_isSome_iff (m : StrMap V) (k : String) : (m.find k).isSome ↔ k ∈ m.keys := by
  rw [← not_iff_not, ← find_eq_none_iff]
  cases m.find k <;> simp

theorem mem_of_find (m : StrMap V) (k : String) (v : V) (h : m.find k = some v) : (k, v) ∈ m := by
  induction m with
  | nil => simp [find] at h
  | cons e rest ih =>
    obtain ⟨k', w⟩ := e
    by_cases hk : k' = k
    · simp [find, hk] at h
      simp [hk, h]
    · simp only [find, hk, if_false] at h
      exact List.mem_cons_of_mem _ (ih h)

theorem find_of_mem (m : StrMap V) (hm : m.keys.Nodup) (k : String) (v : V) (h : (k, v) ∈ m) :
    m.find k = some v := by
  induction m with
  | nil => simp at h
  | cons e rest ih =>
    obtain ⟨k', w⟩ := e
    simp only [keys, List.map_cons, List.nodup_cons] at hm
    rcases List.mem_cons.mp h with h | h
    · cases h
      simp [find]
    · have hne : k' ≠ k := by
        rintro rfl
        exact hm.1 (List.mem_map.mpr ⟨(k', v), h, rfl⟩)
      simp only [find, hne, if_false]
      exact ih hm.2 h

theorem count_eq_zero_iff (m : StrMap V) (k : String) : m.count k = 0 ↔ m.find k = none := by
  unfold count
  cases m.find k <;> simp

end StrMap

/-- The left loop, field by field. -/
theorem foldl_diffLeftStep (R : ParamMap) (L : ParamMap) (st : DiffState) :
    L.foldl (diffLeftStep R) st =
      { diff_val := st.diff_val ++ L.filterMap (fun e =>
          match R.find e.1 with
          | some it => if e.2.strVal ≠ it.strVal then some ⟨e.1, e.2, it⟩ else none
          | none => none)
        missing_left := st.missing_left
        missing_right := st.missing_right ++
          (L.filter (fun e => (R.find e.1).isNone)).map (fun e => ⟨e.1, e.2⟩)
        missing_left_root := st.missing_left_root
        missing_right_root := st.missing_right_root ++
          (L.filter (fun e => (R.find e.1).isNone)).map (fun e => e.2.cloneAbsolute)
        common_root := st.common_root ++ L.filterMap (fun e =>
          match R.find e.1 with
          | some it => if e.2.strVal ≠ it.strVal then none else some e.2.cloneAbsolute
          | none => none) } := by
  induction L generalizing st with
  | nil => simp
  | cons e rest ih =>
    rw [List.foldl_cons, ih]
    unfold diffLeftStep
    cases hf : R.find e.1 with
    | none => simp [hf, List.filter_cons, List.filterMap_cons]
    | some it =>
      by_cases hv : e.2.strVal = it.strVal
      · simp [hf, hv, List.filter_cons, List.filterMap_cons]
      · simp [hf, hv, List.filter_cons, List.filterMap_cons]

/-- The right loop, field by field. -/
theorem foldl_diffRightStep (L : ParamMap) (R : ParamMap) (st : DiffState) :
    R.foldl (diffRightStep L) st =
      { st with
        missing_left := st.missing_left ++
          (R.filter (fun e => (L.find e.1).isNone)).map (fun e => ⟨e.1, e.2⟩)
        missing_left_root := st.missing_left_root ++
          (R.filter (fun e => (L.find e.1).isNone)).map (fun e => e.2.cloneAbsolute) } := by
  induction R generalizing st with
  | nil => simp
  | cons e rest ih =>
    rw [List.foldl_cons, ih]
    unfold diffRightStep
    cases hf : L.find e.1 with
    | none => simp [hf, StrMap.count, List.filter_cons]
    | some it => simp [hf, StrMap.count, List.filter_cons]

/-! ## diff: the classification (claims C1 and C5) -/

theorem diffParams_eq (L R : ParamMap) :
    diffParams L R =
      { diff_val := L.filterMap (fun e =>
          match R.find e.1 with
          | some it => if e.2.strVal ≠ it.strVal then some ⟨e.1, e.2, it⟩ else none
          | none => none)
        missing_left := (R.filter (fun e => (L.find e.1).isNone)).map (fun e => ⟨e.1, e.2⟩)
        missing_right := (L.filter (fun e => (R.find e.1).isNone)).map (fun e => ⟨e.1, e.2⟩)
        missing_left_root :=
          (R.filter (fun e => (L.find e.1).isNone)).map (fun e => e.2.cloneAbsolute)
        missing_right_root :=
          (L.filter (fun e => (R.find e.1).isNone)).map (fun e => e.2.cloneAbsolute)
        common_root := L.filterMap (fun e =>
          match R.find e.1 with
          | some it => if e.2.strVal ≠ it.strVal then none else some e.2.cloneAbsolute
          | none => none) } := by
  unfold diffParams
  rw [foldl_diffLeftStep, foldl_diffRightStep]
  simp [DiffState.new]

theorem removed_eq (L R : ParamMap) :
    (diffParams L R).removed = ((L.filter (fun e => (R.find e.1).isNone))).map Prod.fst := by
  rw [diffParams_eq]
  simp [DiffState.removed, List.map_map, Function.comp_def]

theorem added_eq (L R : ParamMap) :
    (diffParams L R).added = ((R.filter (fun e => (L.find e.1).isNone))).map Prod.fst := by
  rw [diffParams_eq]
  simp [DiffState.added, List.map_map, Function.comp_def]

theorem differing_eq (L R : ParamMap) :
    (diffParams L R).differing =
      (L.filter (fun e => match R.find e.1 with
        | some it => decide (e.2.strVal ≠ it.strVal)
        | none => false)).map Prod.fst := by
  rw [diffParams_eq]
  simp only [DiffState.differing]
  induction L with
  | nil => simp
  | cons e rest ih =>
    cases hf : R.find e.1 with
    | none => simp_all [List.filterMap_cons, List.filter_cons]
    | some it =>
      by_cases hv : e.2.strVal = it.strVal
      · simp_all [List.filterMap_cons, List.filter_cons]
      · simp_all [List.filterMap_cons, List.filter_cons]

theorem common_eq (L R : ParamMap) :
    (diffParams L R).common =
      (L.filter (fun e => match R.find e.1 with
        | some it => decide (e.2.strVal = it.strVal)
        | none => false)).map (fun e => e.2.fullpath) := by
  rw [diffParams_eq]
  simp only [DiffState.common]
  induction L with
  | nil => simp
  | cons e rest ih =>
    cases hf : R.find e.1 with
    | none => simp_all [List.filterMap_cons, List.filter_cons]
    | some it =>
      by_cases hv : e.2.strVal = it.strVal
      · simp_all [List.filterMap_cons, List.filter_cons, NodeRef.cloneAbsolute, Node.name]
      · simp_all [List.filterMap_cons, List.filter_cons]

theorem common_eq_keys (L R : ParamMap) (hl : L.WF) :
    (diffParams L R).common =
      (L.filter (fun e => match R.find e.1 with
        | some it => decide (e.2.strVal = it.strVal)
        | none => false)).map Prod.fst := by
  rw [common_eq]
  apply List.map_congr_left
  intro e he
  exact hl.2 e (List.mem_of_mem_filter he)

theorem mem_removed_iff (L R : ParamMap) (p : String) :
    p ∈ (diffParams L R).removed ↔ p ∈ L.keys ∧ p ∉ R.keys := by
  rw [removed_eq]
  simp only [List.mem_map, List.mem_filter, Option.isNone_iff_eq_none, StrMap.find_eq_none_iff,
    StrMap.keys]
  constructor
  · rintro ⟨e, ⟨he, hn⟩, rfl⟩
    exact ⟨⟨e, he, rfl⟩, by simpa using hn⟩
  · rintro ⟨⟨e, he, rfl⟩, hn⟩
    exact ⟨e, ⟨he, by simpa using hn⟩, rfl⟩

theorem mem_added_iff (L R : ParamMap) (p : String) :
    p ∈ (diffParams L R).added ↔ p ∈ R.keys ∧ p ∉ L.keys := by
  rw [added_eq]
  simp only [List.mem_map, List.mem_filter, Option.isNone_iff_eq_none, StrMap.find_eq_none_iff,
    StrMap.keys]
  constructor
  · rintro ⟨e, ⟨he, hn⟩, rfl⟩
    exact ⟨⟨e, he, rfl⟩, by simpa using hn⟩
  · rintro ⟨⟨e, he, rfl⟩, hn⟩
    exact ⟨e, ⟨he, by simpa using hn⟩, rfl⟩

theorem mem_differing_iff (L R : ParamMap) (hl : L.keys.Nodup) (p : String) :
    p ∈ (diffParams L R).differing ↔
      ∃ l r, L.find p = some l ∧ R.find p = some r ∧ l.strVal ≠ r.strVal := by
  rw [differing_eq]
  simp only [List.mem_map, List.mem_filter]
  constructor
  · rintro ⟨⟨k, l⟩, ⟨he, hq⟩, rfl⟩
    cases hf : R.find k with
    | none => simp [hf] at hq
    | some r =>
      simp only [hf, decide_eq_true_eq] at hq
      exact ⟨l, r, StrMap.find_of_mem L hl k l he, rfl, hq⟩
  · rintro ⟨l, r, h1, h2, h3⟩
    exact ⟨(p, l), ⟨StrMap.mem_of_find L p l h1, by simp [h2, h3]⟩, rfl⟩

theorem mem_common_iff (L R : ParamMap) (hl : L.WF) (p : String) :
    p ∈ (diffParams L R).common ↔
      ∃ l r, L.find p = some l ∧ R.find p = some r ∧ l.strVal = r.strVal := by
  rw [common_eq_keys L R hl]
  simp only [List.mem_map, List.mem_filter]
  constructor
  · rintro ⟨⟨k, l⟩, ⟨he, hq⟩, rfl⟩
    cases hf : R.find k with
    | none => simp [hf] at hq
    | some r =>
      simp only [hf, decide_eq_true_eq] at hq
      exact ⟨l, r, StrMap.find_of_mem L hl.1 k l he, rfl, hq⟩
  · rintro ⟨l, r, h1, h2, h3⟩
    exact ⟨(p, l), ⟨StrMap.mem_of_find L p l h1, by simp [h2, h3]⟩, rfl⟩

theorem nodup_filter_keys {V : Type} (m : StrMap V) (hm : m.keys.Nodup) (q : String × V → Bool) :
    ((m.filter q).map Prod.fst).Nodup :=
  List.Nodup.sublist ((List.filter_sublist m).map Prod.fst) hm


/-- The children of the three root Sections `diff` renders without `-v` are
named by the paths of their categories. -/
theorem diff_roots_names (left right : ParamMap) (hl : left.WF) (hr : right.WF) :
    (diffParams left right).missing_right_root.map Node.name = (diffParams left right).removed ∧
    (diffParams left right).missing_left_root.map Node.name = (diffParams left right).added := by
  rw [removed_eq, added_eq, diffParams_eq]
  simp only [List.map_map]
  constructor
  · apply List.map_congr_left
    intro e he
    exact hl.2 e (List.mem_of_mem_filter he)
  · apply List.map_congr_left
    intro e he
    exact hr.2 e (List.mem_of_mem_filter he)

/-- C1: for gathered maps, diff puts every path of left or right in exactly one
of the four categories removed, added, differing and common, each of which is
what its name says. -/
theorem diff_categories_partition (left right : ParamMap) (hl : left.WF)
    (hr : right.keys.Nodup) :
    (∀ p, p ∈ (diffParams left right).removed ↔ p ∈ left.keys ∧ p ∉ right.keys) ∧
    (∀ p, p ∈ (diffParams left right).added ↔ p ∈ right.keys ∧ p ∉ left.keys) ∧
    (∀ p, p ∈ (diffParams left right).differing ↔
      ∃ l r, left.find p = some l ∧ right.find p = some r ∧ l.strVal ≠ r.strVal) ∧
    (∀ p, p ∈ (diffParams left right).common ↔
      ∃ l r, left.find p = some l ∧ right.find p = some r ∧ l.strVal = r.strVal) ∧
    ((diffParams left right).removed ++ (diffParams left right).added
      ++ (diffParams left right).differing ++ (diffParams left right).common).Nodup ∧
    (∀ p, p ∈ left.keys ∨ p ∈ right.keys →
      p ∈ (diffParams left right).removed ++ (diffParams left right).added
        ++ (diffParams left right).differing ++ (diffParams left right).common) := by
  have h1 := mem_removed_iff left right
  have h2 := mem_added_iff left right
  have h3 := mem_differing_iff left right hl.1
  have h4 := mem_common_iff left right hl
  refine ⟨h1, h2, h3, h4, ?_, ?_⟩
  · have n1 : (diffParams left right).removed.Nodup := by
      rw [removed_eq]; exact nodup_filter_keys left hl.1 _
    have n2 : (diffParams left right).added.Nodup := by
      rw [added_eq]; exact nodup_filter_keys right hr _
    have n3 : (diffParams left right).differing.Nodup := by
      rw [differing_eq]; exact nodup_filter_keys left hl.1 _
    have n4 : (diffParams left right).common.Nodup := by
      rw [common_eq_keys left right hl]; exact nodup_filter_keys left hl.1 _
    have inR : ∀ p r, right.find p = some r → p ∈ right.keys := fun p r h =>
      (StrMap.find_isSome_iff right p).mp (by simp [h])
    have inL : ∀ p l, left.find p = some l → p ∈ left.keys := fun p l h =>
      (StrMap.find_isSome_iff left p).mp (by simp [h])
    rw [List.nodup_append, List.nodup_append, List.nodup_append]
    refine ⟨⟨⟨n1, n2, ?_⟩, n3, ?_⟩, n4, ?_⟩
    · intro p hp hq
      exact ((h2 p).mp hq).2 ((h1 p).mp hp).1
    · intro p hp hq
      obtain ⟨l, r, hl1, hr1, _⟩ := (h3 p).mp hq
      rcases List.mem_append.mp hp with hp | hp
      · exact ((h1 p).mp hp).2 (inR p r hr1)
      · exact ((h2 p).mp hp).2 (inL p l hl1)
    · intro p hp hq
      obtain ⟨l, r, hl1, hr1, heq⟩ := (h4 p).mp hq
      rcases List.mem_append.mp hp with hp | hp
      · rcases List.mem_append.mp hp with hp | hp
        · exact ((h1 p).mp hp).2 (inR p r hr1)
        · exact ((h2 p).mp hp).2 (inL p l hl1)
      · obtain ⟨l', r', hl2, hr2, hne⟩ := (h3 p).mp hp
        rw [hl1] at hl2; rw [hr1] at hr2
        cases hl2; cases hr2
        exact hne heq
  · intro p hp
    simp only [List.mem_append, h1, h2, h3, h4]
    by_cases hL : p ∈ left.keys
    · by_cases hR : p ∈ right.keys
      · obtain ⟨l, hl1⟩ := Option.isSome_iff_exists.mp ((StrMap.find_isSome_iff left p).mpr hL)
        obtain ⟨r, hr1⟩ := Option.isSome_iff_exists.mp ((StrMap.find_isSome_iff right p).mpr hR)
        by_cases hv : l.strVal = r.strVal
        · exact Or.inr ⟨l, r, hl1, hr1, hv⟩
        · exact Or.inl (Or.inr ⟨l, r, hl1, hr1, hv⟩)
      · exact Or.inl (Or.inl (Or.inl ⟨hL, hR⟩))
    · rcases hp with hp | hp
      · exact absurd hp hL
      · exact Or.inl (Or.inl (Or.inr ⟨hp, hL⟩))

/-- Witness of C1 on the scenario `left=[p=1, q=1] right=[p=2, r=1]`. -/
theorem diff_categories_partition_witness :
    sampleLeft.WF ∧ sampleRight.keys.Nodup ∧
    ((diffParams sampleLeft sampleRight).removed ++ (diffParams sampleLeft sampleRight).added
      ++ (diffParams sampleLeft sampleRight).differing
      ++ (diffParams sampleLeft sampleRight).common).Nodup :=
  ⟨by decide, by decide,
    (diff_categories_partition sampleLeft sampleRight (by decide) (by decide)).2.2.2.2.1⟩

/-- C5: the paths diff(L, R) reports as added are, in the same order, the paths
diff(R, L) reports as removed, and the paths diff(L, R) reports as removed are
those diff(R, L) reports as added. -/
theorem diff_added_removed_swap (L R : ParamMap) :
    (diffParams L R).added = (diffParams R L).removed ∧
    (diffParams L R).removed = (diffParams R L).added := by
  simp only [removed_eq, added_eq, and_self]

/-! ## common (claim C2) -/

/-- The inner loop of `common` keeps the entries whose key the next map holds with the same value. -/
theorem commonErase_eq_filter (next m : ParamMap) :
    commonErase next m = m.filter (fun e => match next.find e.1 with
      | some it2 => decide (it2.strVal = e.2.strVal)
      | none => false) := by
  induction m with
  | nil => simp [commonErase]
  | cons e rest ih =>
    cases hf : next.find e.1 with
    | none => simp [commonErase, List.filter_cons, hf, ih]
    | some it2 =>
      by_cases hv : it2.strVal = e.2.strVal
      · simp [commonErase, List.filter_cons, hf, hv, ih]
      · simp [commonErase, List.filter_cons, hf, hv, ih]

theorem StrMap.find_filter {V : Type} (m : StrMap V) (hm : m.keys.Nodup) (q : String × V → Bool)
    (k : String) (v : V) :
    StrMap.find (m.filter q) k = some v ↔ m.find k = some v ∧ q (k, v) = true := by
  have hn : (StrMap.keys (m.filter q)).Nodup := nodup_filter_keys m hm q
  constructor
  · intro h
    have hmem := StrMap.mem_of_find _ k v h
    rw [List.mem_filter] at hmem
    exact ⟨StrMap.find_of_mem m hm k v hmem.1, hmem.2⟩
  · rintro ⟨h1, h2⟩
    exact StrMap.find_of_mem _ hn k v (List.mem_filter.mpr ⟨StrMap.mem_of_find m k v h1, h2⟩)

theorem commonParams_find (Ms : List ParamMap) (M1 : ParamMap) (h1 : M1.keys.Nodup)
    (p : String) (n : NodeRef) :
    (commonParams M1 Ms).find p = some n ↔
      M1.find p = some n ∧ ∀ M ∈ Ms, ∃ m, M.find p = some m ∧ m.strVal = n.strVal := by
  induction Ms generalizing M1 with
  | nil => simp [commonParams]
  | cons M rest ih =>
    have hstep : commonParams M1 (M :: rest) = commonParams (commonErase M M1) rest := rfl
    rw [hstep, ih (commonErase M M1) (by rw [commonErase_eq_filter]; exact nodup_filter_keys M1 h1 _),
      commonErase_eq_filter, StrMap.find_filter M1 h1]
    constructor
    · rintro ⟨⟨hf, hq⟩, hrest⟩
      refine ⟨hf, ?_⟩
      intro M' hM'
      rcases List.mem_cons.mp hM' with rfl | hM'
      · cases hm : StrMap.find M' p with
        | none => simp [hm] at hq
        | some m =>
          simp only [hm, decide_eq_true_eq] at hq
          exact ⟨m, rfl, hq⟩
      · exact hrest M' hM'
    · rintro ⟨hf, hall⟩
      refine ⟨⟨hf, ?_⟩, fun M' hM' => hall M' (List.mem_cons_of_mem _ hM')⟩
      obtain ⟨m, hm, hv⟩ := hall M (List.mem_cons_self _ _)
      simp [hm, hv]

/-- C2: a path is a key of the final `common_params` exactly when the first map
holds it and every later map holds it with the same string value, and the node
kept for it is the one of the first map. -/
theorem common_params_correct (M1 : ParamMap) (Ms : List ParamMap) (h1 : M1.keys.Nodup)
    (p : String) :
    (p ∈ (commonParams M1 Ms).keys ↔
      ∃ n, M1.find p = some n ∧ ∀ M ∈ Ms, ∃ m, M.find p = some m ∧ m.strVal = n.strVal) ∧
    (∀ n, (commonParams M1 Ms).find p = some n → M1.find p = some n) := by
  constructor
  · rw [← StrMap.find_isSome_iff, Option.isSome_iff_exists]
    exact exists_congr (fun n => commonParams_find Ms M1 h1 p n)
  · intro n hn
    exact ((commonParams_find Ms M1 h1 p n).mp hn).1

/-- Witness of C2: the two sample maps share no parameter with equal value. -/
theorem common_params_correct_witness :
    sampleLeft.keys.Nodup ∧
    ∀ n, (commonParams sampleLeft [sampleRight]).find "p" = some n →
      sampleLeft.find "p" = some n :=
  ⟨by decide, (common_params_correct sampleLeft [sampleRight] (by decide) "p").2⟩

/-! ## Gathered maps -/

theorem StrMap.keys_cons {V : Type} (e : String × V) (rest : StrMap V) :
    StrMap.keys (e :: rest) = e.1 :: StrMap.keys rest := rfl

theorem StrMap.keys_modify {V : Type} (m : StrMap V) (k : String) (f : V → V) :
    StrMap.keys (StrMap.modify k f m) = StrMap.keys m := by
  induction m with
  | nil => rfl
  | cons e rest ih =>
    obtain ⟨k0, v0⟩ := e
    by_cases h : k0 = k
    · simp [StrMap.modify, StrMap.keys, h]
    · simp only [StrMap.modify, h, if_false, StrMap.keys_cons, ih]

theorem StrMap.mem_modify {V : Type} (m : StrMap V) (k : String) (f : V → V) (e : String × V)
    (he : e ∈ StrMap.modify k f m) : (∃ v0, e = (k, f v0)) ∨ e ∈ m := by
  induction m with
  | nil => simp [StrMap.modify] at he
  | cons e0 rest ih =>
    obtain ⟨k0, v0⟩ := e0
    by_cases h : k0 = k
    · simp only [StrMap.modify, h, if_true, List.mem_cons] at he
      rcases he with he | he
      · exact Or.inl ⟨v0, he⟩
      · exact Or.inr (List.mem_cons_of_mem _ he)
    · simp only [StrMap.modify, h, if_false, List.mem_cons] at he
      rcases he with he | he
      · exact Or.inr (by simp [he])
      · rcases ih he with h' | h'
        · exact Or.inl h'
        · exact Or.inr (List.mem_cons_of_mem _ h')

theorem StrMap.insertNew_perm {V : Type} (m : StrMap V) (k : String) (v : V) :
    List.Perm (StrMap.insertNew k v m) ((k, v) :: m) := by
  induction m with
  | nil => simp [StrMap.insertNew]
  | cons e rest ih =>
    obtain ⟨k0, v0⟩ := e
    cases h : keyLt k k0
    · simp only [StrMap.insertNew, h, if_false, Bool.false_eq_true]
      exact (List.Perm.cons _ ih).trans (List.Perm.swap _ _ _)
    · simp [StrMap.insertNew, h]

theorem StrMap.mem_keys_assign {V : Type} (m : StrMap V) (k : String) (v : V) (k' : String) :
    k' ∈ StrMap.keys (StrMap.assign k v m) ↔ k' = k ∨ k' ∈ StrMap.keys m := by
  unfold StrMap.assign
  by_cases h : (StrMap.find m k).isSome = true
  · rw [if_pos h, StrMap.keys_modify]
    have hk := (StrMap.find_isSome_iff m k).mp h
    constructor
    · exact Or.inr
    · rintro (rfl | h')
      · exact hk
      · exact h'
  · rw [if_neg h]
    have := (StrMap.insertNew_perm m k v).map Prod.fst
    rw [StrMap.keys, this.mem_iff]
    simp [StrMap.keys]

theorem StrMap.mem_assign {V : Type} (m : StrMap V) (k : String) (v : V) (e : String × V)
    (he : e ∈ StrMap.assign k v m) : e = (k, v) ∨ e ∈ m := by
  unfold StrMap.assign at he
  by_cases h : (StrMap.find m k).isSome = true
  · rw [if_pos h] at he
    rcases StrMap.mem_modify m k _ e he with ⟨_, h'⟩ | h'
    · exact Or.inl h'
    · exact Or.inr h'
  · rw [if_neg h] at he
    have := (StrMap.insertNew_perm m k v).mem_iff.mp he
    simpa using this

theorem StrMap.nodup_keys_assign {V : Type} (m : StrMap V) (k : String) (v : V)
    (hm : (StrMap.keys m).Nodup) : (StrMap.keys (StrMap.assign k v m)).Nodup := by
  unfold StrMap.assign
  by_cases h : (StrMap.find m k).isSome = true
  · rw [if_pos h, StrMap.keys_modify]
    exact hm
  · rw [if_neg h]
    have hp := (StrMap.insertNew_perm m k v).map Prod.fst
    rw [StrMap.keys, hp.nodup_iff]
    simp only [List.map_cons, List.nodup_cons]
    exact ⟨fun hk => h ((StrMap.find_isSome_iff m k).mpr hk), hm⟩

/-- What a gather over a list of visited nodes holds. -/
theorem gather_foldl_spec (visits : List NodeRef) (m : ParamMap) (hm : m.WF) :
    (visits.foldl GatherParamWalker.walk m).WF ∧
    ∀ p, p ∈ StrMap.keys (visits.foldl GatherParamWalker.walk m) ↔
      p ∈ StrMap.keys m ∨ ∃ n ∈ visits, n.type = NodeType.Field ∧ n.fullpath = p := by
  induction visits generalizing m with
  | nil => simp [hm]
  | cons n rest ih =>
    have hstep : (GatherParamWalker.walk m n).WF ∧
        ∀ p, p ∈ StrMap.keys (GatherParamWalker.walk m n) ↔
          p ∈ StrMap.keys m ∨ (n.type = NodeType.Field ∧ n.fullpath = p) := by
      unfold GatherParamWalker.walk
      by_cases ht : n.type = NodeType.Field
      · rw [if_pos ht]
        refine ⟨⟨StrMap.nodup_keys_assign m _ _ hm.1, ?_⟩, ?_⟩
        · intro e he
          rcases StrMap.mem_assign m _ _ e he with h | h
          · rw [h]
          · exact hm.2 e h
        · intro p
          rw [StrMap.mem_keys_assign]
          constructor
          · rintro (h | h)
            · exact Or.inr ⟨ht, h.symm⟩
            · exact Or.inl h
          · rintro (h | ⟨_, h⟩)
            · exact Or.inr h
            · exact Or.inl h.symm
      · rw [if_neg ht]
        exact ⟨hm, fun p => by simp [ht]⟩
    obtain ⟨h1, h2⟩ := ih (GatherParamWalker.walk m n) hstep.1
    refine ⟨h1, fun p => ?_⟩
    rw [List.foldl_cons, h2 p, hstep.2 p]
    simp only [List.mem_cons, exists_eq_or_imp]
    tauto

/-- Every gathered map has the shape `ParamMap.WF`. -/
theorem gatherParams_WF (t : NodeType) (root : Node) : (gatherParams t root).WF :=
  (gather_foldl_spec _ [] ⟨by simp [StrMap.keys], by simp⟩).1

/-- The keys of a gathered map are the fullpaths of the Fields visited. -/
theorem mem_keys_gatherParams (t : NodeType) (root : Node) (p : String) :
    p ∈ StrMap.keys (gatherParams t root) ↔
      ∃ n ∈ root.walk t "", n.type = NodeType.Field ∧ n.fullpath = p := by
  have := (gather_foldl_spec (root.walk t "") [] ⟨by simp [StrMap.keys], by simp⟩).2 p
  simpa [StrMap.keys] using this

/-! ## subtract (claim C6) -/

theorem walkList_append (t : NodeType) (parent : String) (as bs : List Node) :
    Node.walkList t parent (as ++ bs) = Node.walkList t parent as ++ Node.walkList t parent bs := by
  induction as with
  | nil => simp [Node.walkList]
  | cons a rest ih => simp [Node.walkList, ih]

mutual
/-- A node without content yields no Field in a walk. -/
theorem walk_of_not_hasContent (parent : String) :
    ∀ n : Node, Node.hasContent n = false → Node.walk .Field parent n = []
  | .section name filename line children, h => by
    simp only [Node.hasContent] at h
    simp [Node.walk, NodeType.admits, walkList_of_not_anyContent (joinPath parent name) children h]
  | .field _ _ _ _, h => by simp [Node.hasContent] at h
  | .comment _, _ => by simp [Node.walk]
  | .blank, _ => by simp [Node.walk]
/-- Nodes without content yield no Field in a walk. -/
theorem walkList_of_not_anyContent (parent : String) :
    ∀ cs : List Node, Node.anyContent cs = false → Node.walkList .Field parent cs = []
  | [], _ => by simp [Node.walkList]
  | c :: cs, h => by
    simp only [Node.anyContent, Bool.or_eq_false_iff] at h
    simp [Node.walkList, walk_of_not_hasContent parent c h.1,
      walkList_of_not_anyContent parent cs h.2]
end

mutual
/-- RemoveEmptySectionWalker keeps every Field of a node. -/
theorem walk_removeEmpty_node (parent : String) :
    ∀ n : Node, Node.walkList .Field parent (RemoveEmptySectionWalker.node n)
      = Node.walk .Field parent n
  | .section name filename line children => by
    cases h : Node.anyContent children
    · simp [RemoveEmptySectionWalker.node, h, Node.walkList, Node.walk, NodeType.admits,
        walkList_of_not_anyContent (joinPath parent name) children h]
    · simp [RemoveEmptySectionWalker.node, h, Node.walkList, Node.walk, NodeType.admits,
        walk_removeEmpty_nodes (joinPath parent name) children]
  | .field _ _ _ _ => by simp [RemoveEmptySectionWalker.node, Node.walkList]
  | .comment _ => by simp [RemoveEmptySectionWalker.node, Node.walkList]
  | .blank => by simp [RemoveEmptySectionWalker.node, Node.walkList]
/-- RemoveEmptySectionWalker keeps every Field of a list of nodes. -/
theorem walk_removeEmpty_nodes (parent : String) :
    ∀ cs : List Node, Node.walkList .Field parent (RemoveEmptySectionWalker.nodes cs)
      = Node.walkList .Field parent cs
  | [] => by simp [RemoveEmptySectionWalker.nodes]
  | c :: cs => by
    simp [RemoveEmptySectionWalker.nodes, walkList_append, Node.walkList,
      walk_removeEmpty_node parent c, walk_removeEmpty_nodes parent cs]
end

mutual
/-- RemoveParamWalker drops exactly the Fields whose fullpath is a key of the map. -/
theorem walk_removeParam_node (m : ParamMap) (parent : String) :
    ∀ n : Node, Node.walkList .Field parent (RemoveParamWalker.node m parent n)
      = (Node.walk .Field parent n).filter (fun r => decide (m.count r.fullpath = 0))
  | .section name filename line children => by
    simp [RemoveParamWalker.node, Node.walkList, Node.walk, NodeType.admits,
      walk_removeParam_nodes m (joinPath parent name) children]
  | .field name val filename line => by
    by_cases h : m.count (joinPath parent name) = 0
    · simp [RemoveParamWalker.node, Node.walkList, Node.walk, NodeType.admits, h]
    · have h' : m.count (joinPath parent name) > 0 := Nat.pos_of_ne_zero h
      simp [RemoveParamWalker.node, Node.walkList, Node.walk, NodeType.admits, h, h']
  | .comment _ => by simp [RemoveParamWalker.node, Node.walkList, Node.walk]
  | .blank => by simp [RemoveParamWalker.node, Node.walkList, Node.walk]
/-- RemoveParamWalker on a list of nodes. -/
theorem walk_removeParam_nodes (m : ParamMap) (parent : String) :
    ∀ cs : List Node, Node.walkList .Field parent (RemoveParamWalker.nodes m parent cs)
      = (Node.walkList .Field parent cs).filter (fun r => decide (m.count r.fullpath = 0))
  | [] => by simp [RemoveParamWalker.nodes, Node.walkList]
  | c :: cs => by
    simp [RemoveParamWalker.nodes, walkList_append, Node.walkList,
      walk_removeParam_node m parent c, walk_removeParam_nodes m parent cs]
end


mutual
/-- A walk filtered by Field visits Fields only. -/
theorem walk_field_type (parent : String) :
    ∀ (n : Node) (r : NodeRef), r ∈ Node.walk .Field parent n → r.type = NodeType.Field
  | .section name filename line children, r, h => by
    simp only [Node.walk, NodeType.admits] at h
    simp at h
    exact walkList_field_type (joinPath parent name) children r h
  | .field name val filename line, r, h => by
    simp [Node.walk, NodeType.admits] at h
    rw [h]
  | .comment _, r, h => by simp [Node.walk] at h
  | .blank, r, h => by simp [Node.walk] at h
/-- A walk filtered by Field visits Fields only (lists of nodes). -/
theorem walkList_field_type (parent : String) :
    ∀ (cs : List Node) (r : NodeRef), r ∈ Node.walkList .Field parent cs →
      r.type = NodeType.Field
  | [], r, h => by simp [Node.walkList] at h
  | c :: cs, r, h => by
    simp only [Node.walkList, List.mem_append] at h
    rcases h with h | h
    · exact walk_field_type parent c r h
    · exact walkList_field_type parent cs r h
end

/-- The Fields of the tree `subtract` renders: those of `right` whose fullpath
is not the fullpath of a Field of `left`, in their order. -/
theorem walk_subtractTrees (left : Node) (name filename : String) (line : Nat)
    (children : List Node) :
    (subtractTrees left (.section name filename line children)).walk .Field "" =
      ((Node.section name filename line children).walk .Field "").filter
        (fun r => decide (∀ l ∈ left.walk .Field "", l.fullpath ≠ r.fullpath)) := by
  have hcount : ∀ r : NodeRef, (gatherParams .Field left).count r.fullpath = 0 ↔
      ∀ l ∈ left.walk .Field "", l.fullpath ≠ r.fullpath := by
    intro r
    rw [StrMap.count_eq_zero_iff, StrMap.find_eq_none_iff, mem_keys_gatherParams]
    constructor
    · intro h l hl heq
      exact h ⟨l, hl, walk_field_type "" left l hl, heq⟩
    · rintro h ⟨l, hl, _, heq⟩
      exact h l hl heq
  simp only [subtractTrees, removeEmptySections, removeParams, Node.withChildren, Node.walk,
    NodeType.admits]
  simp only [walk_removeEmpty_nodes, walk_removeParam_nodes, hcount]
  simp

/-- C6: the tree `subtract` renders holds no Field whose fullpath is a leaf path
of `left`, and every Field of `right` whose fullpath is not a leaf path of
`left` is still there with its value and location. -/
theorem subtract_correct (left : Node) (name filename : String) (line : Nat)
    (children : List Node) :
    (∀ r ∈ (subtractTrees left (.section name filename line children)).walk .Field "",
      ∀ l ∈ left.walk .Field "", r.fullpath ≠ l.fullpath) ∧
    (∀ r ∈ (Node.section name filename line children).walk .Field "",
      (∀ l ∈ left.walk .Field "", r.fullpath ≠ l.fullpath) →
        r ∈ (subtractTrees left (.section name filename line children)).walk .Field "") := by
  rw [walk_subtractTrees]
  constructor
  · intro r hr l hl heq
    have := (List.mem_filter.mp hr).2
    simp only [decide_eq_true_eq] at this
    exact this l hl heq.symm
  · intro r hr hne
    refine List.mem_filter.mpr ⟨hr, ?_⟩
    simp only [decide_eq_true_eq]
    intro l hl heq
    exact hne l hl heq.symm

/-! ## parseOpts: unfolding without fuel -/

theorem vecLoop_length (xs : List String) : (vecLoop xs).2.length ≤ xs.length := by
  induction xs with
  | nil => simp [vecLoop]
  | cons x rest ih =>
    unfold vecLoop
    by_cases h : char0 x ≠ '-'
    · rw [if_pos h]
      exact Nat.le_succ_of_le ih
    · rw [if_neg h]

/-- The result of `parseLoop` does not depend on the fuel, once there is more
fuel than arguments. -/
theorem parseLoop_fuel (f1 f2 : Nat) (flags : Flags) (args : List String)
    (h1 : args.length < f1) (h2 : args.length < f2) :
    parseLoop f1 flags args = parseLoop f2 flags args := by
  induction f1 generalizing f2 flags args with
  | zero => omega
  | succ n ih =>
    cases f2 with
    | zero => omega
    | succ k =>
      cases args with
      | nil => simp [parseLoop]
      | cons arg rest =>
        simp only [List.length_cons] at h1 h2
        unfold parseLoop
        by_cases hd : char0 arg ≠ '-'
        · simp only [if_pos hd]
        · by_cases hl : arg.length = 1
          · simp only [if_neg hd, if_pos hl]
          · simp only [if_neg hd, if_neg hl]
            cases hf : flags.flags.find (flagName arg) with
            | none => rfl
            | some flag =>
              simp only []
              by_cases ha : flag.arg = true
              · simp only [ha, if_true]
                cases rest with
                | nil => rfl
                | cons v rest' =>
                  simp only [List.length_cons] at h1 h2
                  exact ih k _ rest' (by omega) (by omega)
              · simp only [ha, if_false]
                by_cases hv : flag.vec = true
                · simp only [hv, if_true]
                  have := vecLoop_length rest
                  exact ih k _ _ (by omega) (by omega)
                · simp only [hv, if_false]
                  exact ih k _ rest (by omega) (by omega)

/-- The embedding of `parseOpts` never runs out of fuel. -/
theorem parseLoop_ne_outOfFuel (f : Nat) (flags : Flags) (args : List String)
    (h : args.length < f) : parseLoop f flags args ≠ .error .outOfFuel := by
  induction f generalizing flags args with
  | zero => omega
  | succ n ih =>
    cases args with
    | nil => simp [parseLoop]
    | cons arg rest =>
      simp only [List.length_cons] at h
      unfold parseLoop
      by_cases hd : char0 arg ≠ '-'
      · simp [if_pos hd]
      · by_cases hl : arg.length = 1
        · simp [if_neg hd, if_pos hl]
        · simp only [if_neg hd, if_neg hl]
          cases hf : flags.flags.find (flagName arg) with
          | none => simp
          | some flag =>
            simp only []
            by_cases ha : flag.arg = true
            · simp only [ha, if_true]
              cases rest with
              | nil => simp
              | cons v rest' =>
                simp only [List.length_cons] at h
                exact ih _ rest' (by omega)
            · simp only [ha, if_false]
              by_cases hv : flag.vec = true
              · simp only [hv, if_true]
                have := vecLoop_length rest
                exact ih _ _ (by omega)
              · simp only [hv, if_false]
                exact ih _ rest (by omega)

theorem parseOpts_ne_outOfFuel (argv : List String) (flags : Flags) :
    parseOpts argv flags ≠ .error .outOfFuel :=
  parseLoop_ne_outOfFuel _ flags argv (Nat.lt_succ_self _)

theorem parseOpts_nil (flags : Flags) : parseOpts [] flags = .ok (flags, []) := rfl

/-- One iteration of the loop of `parseOpts`, without fuel. -/
theorem parseOpts_cons (arg : String) (rest : List String) (flags : Flags) :
    parseOpts (arg :: rest) flags =
      if char0 arg ≠ '-' then .ok (flags, arg :: rest)
      else if arg.length = 1 then .ok (flags, ["-"])
      else
        match flags.flags.find (flagName arg) with
        | none => .error (.unknownFlag ("unknown flag '" ++ arg))
        | some flag =>
          if flag.arg then
            match rest with
            | [] => .error .argvPastEnd
            | v :: rest' =>
              parseOpts rest' (flags.update (flagName arg) (fun f => { f with have_ := true, val := v }))
          else if flag.vec then
            parseOpts (vecLoop rest).2
              (flags.update (flagName arg)
                (fun f => { f with have_ := true, vec_val := f.vec_val ++ (vecLoop rest).1 }))
          else
            parseOpts rest (flags.update (flagName arg) (fun f => { f with have_ := true })) := by
  unfold parseOpts
  rw [List.length_cons]
  conv => lhs; unfold parseLoop
  by_cases hd : char0 arg ≠ '-'
  · simp only [if_pos hd]
  · by_cases hl : arg.length = 1
    · simp only [if_neg hd, if_pos hl]
    · simp only [if_neg hd, if_neg hl]
      cases hf : flags.flags.find (flagName arg) with
      | none => rfl
      | some flag =>
        simp only []
        by_cases ha : flag.arg = true
        · simp only [ha, if_true]
          cases rest with
          | nil => rfl
          | cons v rest' =>
            simp only [List.length_cons]
            exact parseLoop_fuel _ _ _ rest' (by omega) (by omega)
        · simp only [ha, if_false]
          by_cases hv : flag.vec = true
          · simp only [hv, if_true]
            have := vecLoop_length rest
            exact parseLoop_fuel _ _ _ _ (by omega) (by omega)
          · simp only [hv, if_false]
            exact parseLoop_fuel _ _ _ rest (by omega) (by omega)

/-! ## parseOpts: unknown flags -/

theorem vecLoop_append_dash (xs : List String) (bad : String) (rest : List String)
    (hbad : char0 bad = '-') :
    vecLoop (xs ++ bad :: rest) = ((vecLoop xs).1, (vecLoop xs).2 ++ bad :: rest) := by
  induction xs with
  | nil => simp [vecLoop, hbad]
  | cons x xs ih =>
    have hc : (x :: xs) ++ bad :: rest = x :: (xs ++ bad :: rest) := rfl
    rw [hc]
    by_cases h : char0 x ≠ '-'
    · simp only [vecLoop, if_pos h, ih]
    · simp only [vecLoop, if_neg h]
      rfl

theorem StrMap.find_modify_eq_none {V : Type} (m : StrMap V) (k : String) (f : V → V)
    (k' : String) : StrMap.find (StrMap.modify k f m) k' = none ↔ StrMap.find m k' = none := by
  rw [StrMap.find_eq_none_iff, StrMap.find_eq_none_iff, StrMap.keys_modify]

theorem Flags.find_update_eq_none (fl : Flags) (k : String) (f : Flag → Flag) (k' : String) :
    (fl.update k f).flags.find k' = none ↔ fl.flags.find k' = none :=
  StrMap.find_modify_eq_none fl.flags k f k'

/-- Parsing registers no flag: the names unknown after `parseOpts` are those unknown before. -/
theorem parseOpts_find_eq_none (n : Nat) :
    ∀ (args : List String), args.length ≤ n → ∀ (flags fl' : Flags) (pos : List String),
      parseOpts args flags = .ok (fl', pos) →
        ∀ k, fl'.flags.find k = none ↔ flags.flags.find k = none := by
  induction n with
  | zero =>
    intro args hlen flags fl' pos h k
    have : args = [] := List.length_eq_zero.mp (Nat.le_zero.mp hlen)
    subst this
    rw [parseOpts_nil] at h
    cases h
    rfl
  | succ n ih =>
    intro args hlen flags fl' pos h k
    cases args with
    | nil =>
      rw [parseOpts_nil] at h
      cases h
      rfl
    | cons arg rest =>
      simp only [List.length_cons, Nat.add_le_add_iff_right] at hlen
      rw [parseOpts_cons] at h
      by_cases hd : char0 arg ≠ '-'
      · rw [if_pos hd] at h
        cases h
        rfl
      · rw [if_neg hd] at h
        by_cases hl : arg.length = 1
        · rw [if_pos hl] at h
          cases h
          rfl
        · rw [if_neg hl] at h
          cases hf : flags.flags.find (flagName arg) with
          | none => simp [hf] at h
          | some flag =>
            simp only [hf] at h
            by_cases ha : flag.arg = true
            · rw [if_pos ha] at h
              cases rest with
              | nil => simp at h
              | cons v rest' =>
                simp only at h
                simp only [List.length_cons] at hlen
                rw [ih rest' (by omega) _ fl' pos h k, Flags.find_update_eq_none]
            · rw [if_neg ha] at h
              by_cases hv : flag.vec = true
              · rw [if_pos hv] at h
                have := vecLoop_length rest
                rw [ih _ (by omega) _ fl' pos h k, Flags.find_update_eq_none]
              · rw [if_neg hv] at h
                rw [ih rest hlen _ fl' pos h k, Flags.find_update_eq_none]

/-- Arguments that parse completely as flags parse the same way in front of a
further dash-prefixed argument. -/
theorem parseOpts_append_dash (bad : String) (rest : List String) (hbad : char0 bad = '-')
    (n : Nat) :
    ∀ (pre : List String), pre.length ≤ n → ∀ (flags fl' : Flags),
      parseOpts pre flags = .ok (fl', []) →
        parseOpts (pre ++ bad :: rest) flags = parseOpts (bad :: rest) fl' := by
  induction n with
  | zero =>
    intro pre hlen flags fl' h
    have : pre = [] := List.length_eq_zero.mp (Nat.le_zero.mp hlen)
    subst this
    rw [parseOpts_nil] at h
    cases h
    rfl
  | succ n ih =>
    intro pre hlen flags fl' h
    cases pre with
    | nil =>
      rw [parseOpts_nil] at h
      cases h
      rfl
    | cons arg pre' =>
      simp only [List.length_cons, Nat.add_le_add_iff_right] at hlen
      rw [parseOpts_cons] at h
      rw [List.cons_append, parseOpts_cons]
      by_cases hd : char0 arg ≠ '-'
      · rw [if_pos hd] at h
        cases h
      · rw [if_neg hd] at h ⊢
        by_cases hl : arg.length = 1
        · rw [if_pos hl] at h
          cases h
        · rw [if_neg hl] at h ⊢
          cases hf : flags.flags.find (flagName arg) with
          | none => simp [hf] at h
          | some flag =>
            simp only [hf] at h ⊢
            by_cases ha : flag.arg = true
            · rw [if_pos ha] at h ⊢
              cases pre' with
              | nil => simp at h
              | cons v pre'' =>
                simp only at h
                simp only [List.length_cons] at hlen
                simp only [List.cons_append]
                exact ih pre'' (by omega) _ fl' h
            · rw [if_neg ha] at h ⊢
              by_cases hv : flag.vec = true
              · rw [if_pos hv] at h ⊢
                have := vecLoop_length pre'
                rw [vecLoop_append_dash pre' bad rest hbad]
                exact ih _ (by omega) _ fl' h
              · rw [if_neg hv] at h ⊢
                exact ih pre' hlen _ fl' h

/-- An unregistered flag met after arguments that parse completely as flags
makes `parseOpts` throw. -/
theorem parseOpts_unknown_flag (flags fl' : Flags) (pre : List String) (bad : String)
    (rest : List String) (hpre : parseOpts pre flags = .ok (fl', []))
    (hdash : char0 bad = '-') (hlen : bad.length ≠ 1)
    (hunk : flags.flags.find (flagName bad) = none) :
    parseOpts (pre ++ bad :: rest) flags = .error (.unknownFlag ("unknown flag '" ++ bad)) := by
  rw [parseOpts_append_dash bad rest hdash pre.length pre (Nat.le_refl _) flags fl' hpre,
    parseOpts_cons]
  have hd : ¬ char0 bad ≠ '-' := fun h => h hdash
  rw [if_neg hd, if_neg hlen]
  have := (parseOpts_find_eq_none pre.length pre (Nat.le_refl _) flags fl' [] hpre
    (flagName bad)).mpr hunk
  simp only [this]

/-! ## Unknown flags in the subcommands (claim C8) -/

/-- C8 (amended): in each of the six subcommands, an unregistered flag met after
arguments that parse completely as flags makes `parseOpts` throw, and the
exception leaves the subcommand: nothing is printed and no code is returned. -/
theorem unknown_flag_uncaught (cmd : Subcommand) (lib : Lib) (w : World) (pre : List String)
    (bad : String) (rest : List String)
    (hpre : ∃ fl', parseOpts pre cmd.flags = .ok (fl', []))
    (hdash : char0 bad = '-') (hlen : bad.length ≠ 1)
    (hunk : cmd.flags.flags.find (flagName bad) = none) :
    cmd.run lib (pre ++ bad :: rest) w = .uncaught ("unknown flag '" ++ bad) w := by
  obtain ⟨fl', hpre⟩ := hpre
  have h := parseOpts_unknown_flag cmd.flags fl' pre bad rest hpre hdash hlen hunk
  cases cmd <;>
    simp only [Subcommand.run, Subcommand.flags, findParam, format, merge, diff, common,
      subtract] at h ⊢ <;>
    rw [h] <;> rfl

/-- Witness of C8 (amended): `hit format -style s.i -i --bogus left.i`. -/
theorem unknown_flag_uncaught_witness :
    (∃ fl', parseOpts ["-style", "s.i", "-i"] Subcommand.format.flags = .ok (fl', [])) ∧
    Subcommand.format.run sampleLib (["-style", "s.i", "-i"] ++ "--bogus" :: ["left.i"]) sampleWorld
      = .uncaught ("unknown flag '" ++ "--bogus") sampleWorld :=
  ⟨⟨_, rfl⟩, unknown_flag_uncaught .format sampleLib sampleWorld ["-style", "s.i", "-i"] "--bogus"
    ["left.i"] ⟨_, rfl⟩ (by decide) (by decide) (by decide)⟩

/-- C8 as stated fails: `hit find -x p left.i` has the unregistered flag `-x`
first, and `findParam` neither returns a code nor prints anything. -/
theorem unknown_flag_no_usage :
    char0 "-x" = '-' ∧ findFlags.flags.find (flagName "-x") = none ∧
    (findParam sampleLib ["-x", "p", "left.i"] sampleWorld).code? = none ∧
    (findParam sampleLib ["-x", "p", "left.i"] sampleWorld).world.cout = "" ∧
    (findParam sampleLib ["-x", "p", "left.i"] sampleWorld).world.cerr = "" := by
  decide

/-! ## The lone dash (claim C9), validate (claim C3) and a remark on DupParamWalker -/

/-- C9 fails on the code: a lone `-` met by the flag loop makes `parseOpts`
return the single positional `-`, whatever follows it; `hit format - a.i b.i`
loses `a.i` and `b.i`. -/
theorem parseOpts_lone_dash_drops_rest :
    parseOpts ["-", "a.i", "b.i"] formatFlags = .ok (formatFlags, ["-"]) ∧
    ∀ (flags : Flags) (rest : List String), parseOpts ("-" :: rest) flags = .ok (flags, ["-"]) := by
  refine ⟨rfl, fun flags rest => ?_⟩
  rw [parseOpts_cons]
  rfl

/-- What `validate` does with one file whose document parses: it prints the
errors of the walker and returns 0. -/
theorem validate_parsed_file (lib : Lib) (w : World) (fname : String) (root : Node)
    (hparse : lib.parse fname (w.slurp fname).1 = .ok root) :
    validate lib [fname] w = .exit 0 ((w.slurp fname).2.out (String.join
      ((DupParamWalker.run lib.errormsg (root.walk .Field "")).errors.map
        (fun msg => msg ++ "\n")))) := by
  simp [validate, validateLoop, hparse]

/-- C3 fails on the code: on the document with `x/p` at lines 2 and 5 `validate`
prints the two duplicate errors and returns 0. -/
theorem validate_duplicates_exit_zero :
    sampleLib.parse "dup.i" (sampleWorld.slurp "dup.i").1 = .ok (sampleDupTree "dup.i") ∧
    (DupParamWalker.run sampleLib.errormsg ((sampleDupTree "dup.i").walk .Field "")).errors =
      ["dup.i:2: parameter 'x/p' supplied multiple times",
       "dup.i:5: parameter 'x/p' supplied multiple times"] ∧
    (validate sampleLib ["dup.i"] sampleWorld).code? = some 0 ∧
    (validate sampleLib ["dup.i"] sampleWorld).world.cout =
      "dup.i:2: parameter 'x/p' supplied multiple times\n"
        ++ "dup.i:5: parameter 'x/p' supplied multiple times\n" :=
  ⟨rfl, by decide, by decide, by decide⟩

/-- Beyond the walks main.cc performs (`validate` walks Fields only): were the
walker run over all kinds of node, a Section `a` followed by a Field `a` at the
same fullpath would give two errors, the one reported against the Section
prefixed `parameter`, the kind of the later node, where the specification has
`section`. -/
theorem dup_walker_prefix_of_later_node (errormsg : NodeRef → String → String) :
    (sampleMixedTree "in.i").walk .All "" =
      [⟨.Section, "", "", "in.i", 0⟩, ⟨.Section, "a", "", "in.i", 1⟩,
        ⟨.Field, "a", "1", "in.i", 3⟩] ∧
    (DupParamWalker.run errormsg ((sampleMixedTree "in.i").walk .All "")).errors =
      [errormsg ⟨.Section, "a", "", "in.i", 1⟩ "parameter 'a' supplied multiple times",
       errormsg ⟨.Field, "a", "1", "in.i", 3⟩ "parameter 'a' supplied multiple times"] ∧
    DupSpec.errors errormsg [] ((sampleMixedTree "in.i").walk .All "") =
      [errormsg ⟨.Section, "a", "", "in.i", 1⟩ "section 'a' supplied multiple times",
       errormsg ⟨.Field, "a", "1", "in.i", 3⟩ "parameter 'a' supplied multiple times"] :=
  ⟨by decide, rfl, rfl⟩

/-! ## diff: exit code (claim C7) and colour (claim C10) -/

theorem size_eq_zero_iff (s : String) : size s = 0 ↔ s = "" := by
  obtain ⟨cs⟩ := s
  simp only [size, String.utf8ByteSize_mk, String.utf8Len_eq_zero]
  constructor
  · rintro rfl; rfl
  · intro h; exact congrArg String.data h

theorem ne_empty_of_length_pos (s : String) (h : 0 < s.length) : s ≠ "" := by
  rintro rfl
  simp at h

theorem join_eq_empty_iff {α : Type} (f : α → String) (hf : ∀ a, f a ≠ "") (l : List α) :
    String.join (l.map f) = "" ↔ l = [] := by
  cases l with
  | nil => simp [String.join]
  | cons a rest =>
    simp only [reduceCtorEq, iff_false]
    intro h
    have h2 := congrArg String.data h
    rw [String.join_eq] at h2
    simp only [List.map_cons, List.flatten_cons, List.append_eq_nil] at h2
    exact hf a (String.ext h2.1)

theorem Missing.strRight_ne_empty (c : Colors) (m : Missing) : m.strRight c ≠ "" :=
  ne_empty_of_length_pos _ (by
    simp only [Missing.strRight, String.length_append]
    have : (" is missing on the right.\n" : String).length = 26 := by decide
    omega)

theorem Missing.strLeft_ne_empty (c : Colors) (m : Missing) : m.strLeft c ≠ "" :=
  ne_empty_of_length_pos _ (by
    simp only [Missing.strLeft, String.length_append]
    have : (" is missing on the left.\n" : String).length = 25 := by decide
    omega)

theorem Differing.str_ne_empty (c : Colors) (d : Differing) : d.str c ≠ "" :=
  ne_empty_of_length_pos _ (by
    simp only [Differing.str, String.length_append]
    have : ("'\n" : String).length = 2 := by decide
    omega)


theorem diffValStr_size (c : Colors) (st : DiffState) :
    size (st.diffValStr c) = 0 ↔ st.diff_val = [] := by
  rw [size_eq_zero_iff, DiffState.diffValStr, join_eq_empty_iff _ (Differing.str_ne_empty c)]

theorem missingLeftStr_size (c : Colors) (st : DiffState) :
    size (st.missingLeftStr c) = 0 ↔ st.missing_left = [] := by
  rw [size_eq_zero_iff, DiffState.missingLeftStr, join_eq_empty_iff _ (Missing.strLeft_ne_empty c)]

theorem missingRightStr_size (c : Colors) (st : DiffState) :
    size (st.missingRightStr c) = 0 ↔ st.missing_right = [] := by
  rw [size_eq_zero_iff, DiffState.missingRightStr,
    join_eq_empty_iff _ (Missing.strRight_ne_empty c)]

/-- The exit code the output report of `diff` computes. -/
theorem diffReport_code (lib : Lib) (c : Colors) (verbose common : Bool) (st : DiffState)
    (w : World) :
    (diffReport lib c verbose common st w).1 =
      if common then 0
      else if st.removed ≠ [] ∨ st.added ≠ [] ∨ st.differing ≠ [] then 1 else 0 := by
  unfold diffReport
  cases common with
  | true => simp
  | false =>
    simp only [Bool.false_eq_true, if_false]
    have h1 := missingLeftStr_size c st
    have h2 := missingRightStr_size c st
    have h3 := diffValStr_size c st
    have e1 : st.removed ≠ [] ↔ st.missing_right ≠ [] := by simp [DiffState.removed]
    have e2 : st.added ≠ [] ↔ st.missing_left ≠ [] := by simp [DiffState.added]
    have e3 : st.differing ≠ [] ↔ st.diff_val ≠ [] := by simp [DiffState.differing]
    by_cases hcond : st.removed ≠ [] ∨ st.added ≠ [] ∨ st.differing ≠ []
    · rw [if_pos hcond, if_pos]
      rw [e1, e2, e3, Ne, Ne, Ne, ← h1, ← h2, ← h3] at hcond
      omega
    · rw [if_neg hcond, if_neg]
      rw [e1, e2, e3, Ne, Ne, Ne, ← h1, ← h2, ← h3] at hcond
      omega

/-- C7 (amended): when `diff` gets past the help and usage checks and both sides
are read and parsed, it returns 0 if `-common` is given, and otherwise 1 exactly
when some parameter is removed, added or differing. -/
theorem diff_exit_code (lib : Lib) (argv : List String) (w w1 w2 : World) (flags : Flags)
    (positional : List String) (left right : Node)
    (hparse : parseOpts argv diffFlags = .ok (flags, positional))
    (hhelp : (flags.have_ "h" || flags.have_ "help") = false)
    (husage : diffUsageError flags positional = false)
    (hleft : readMerged lib (diffLeftFiles flags positional) w = (.ok (some left), w1))
    (hright : readMerged lib (diffRightFiles flags positional) w1 = (.ok (some right), w2)) :
    (diff lib argv w).code? = some
      (if flags.have_ "common" then 0
       else if (diffParams (gatherParams .Field left) (gatherParams .Field right)).removed ≠ []
          ∨ (diffParams (gatherParams .Field left) (gatherParams .Field right)).added ≠ []
          ∨ (diffParams (gatherParams .Field left) (gatherParams .Field right)).differing ≠ []
        then 1 else 0) := by
  unfold diff
  simp only [hparse, hhelp, husage, hleft, hright, Bool.false_eq_true, if_false, Outcome.code?,
    diffReport_code]

/-- Witness of C7 (amended): `hit diff left.i right.i` on the scenario
`left=[p=1, q=1] right=[p=2, r=1]` returns 1. -/
theorem diff_exit_code_witness :
    parseOpts ["left.i", "right.i"] diffFlags = .ok (diffFlags, ["left.i", "right.i"]) ∧
    (diff sampleLib ["left.i", "right.i"] sampleWorld).code? = some 1 :=
  ⟨rfl, diff_exit_code sampleLib ["left.i", "right.i"] sampleWorld sampleWorld sampleWorld
    diffFlags ["left.i", "right.i"] (sampleLeftTree "left.i") (sampleRightTree "right.i")
    rfl (by decide) (by decide) rfl rfl⟩

/-- C7 as stated fails: `hit diff -common left.i right.i` passes the usage check
and reads both files, parameter `p` differs, and the exit code is 0. -/
theorem diff_common_flag_exit_zero :
    (diffParams (gatherParams .Field (sampleLeftTree "left.i"))
      (gatherParams .Field (sampleRightTree "right.i"))).differing = ["p"] ∧
    (diff sampleLib ["-common", "left.i", "right.i"] sampleWorld).code? = some 0 := by
  decide

set_option maxRecDepth 4096 in
/-- C10 fails on the code: with `-color` the report of `diff` carries no colour
code, it is the report printed without any colour flag, and differs from the
report printed with `-C`. -/
theorem diff_color_flag_ignored :
    (diff sampleLib ["-color", "-v", "left.i", "right.i"] sampleWorld).world.cout ≠
      (diff sampleLib ["-C", "-v", "left.i", "right.i"] sampleWorld).world.cout ∧
    (diff sampleLib ["-color", "-v", "left.i", "right.i"] sampleWorld).world.cout =
      (diff sampleLib ["-v", "left.i", "right.i"] sampleWorld).world.cout := by
  decide

/-! ## parseOpts: the positionals -/

theorem vecLoop_suffix (xs : List String) : (vecLoop xs).2 <:+ xs := by
  induction xs with
  | nil => simp [vecLoop]
  | cons x rest ih =>
    unfold vecLoop
    by_cases h : char0 x ≠ '-'
    · rw [if_pos h]
      exact ih.trans (List.suffix_cons x rest)
    · rw [if_neg h]

/-- The part of C9 that holds: unless the flag loop met a lone `-`, the
positionals are a tail of the argument list (nothing after the first positional
is dropped or reordered) that starts with an argument without a leading dash. -/
theorem parseOpts_positionals (n : Nat) :
    ∀ (args : List String), args.length ≤ n → ∀ (flags fl' : Flags) (pos : List String),
      parseOpts args flags = .ok (fl', pos) →
        pos = ["-"] ∨ (pos <:+ args ∧ ∀ a, pos.head? = some a → char0 a ≠ '-') := by
  induction n with
  | zero =>
    intro args hlen flags fl' pos h
    have : args = [] := List.length_eq_zero.mp (Nat.le_zero.mp hlen)
    subst this
    rw [parseOpts_nil] at h
    cases h
    exact Or.inr ⟨List.suffix_refl _, by simp⟩
  | succ n ih =>
    intro args hlen flags fl' pos h
    cases args with
    | nil =>
      rw [parseOpts_nil] at h
      cases h
      exact Or.inr ⟨List.suffix_refl _, by simp⟩
    | cons arg rest =>
      simp only [List.length_cons, Nat.add_le_add_iff_right] at hlen
      rw [parseOpts_cons] at h
      by_cases hd : char0 arg ≠ '-'
      · rw [if_pos hd] at h
        cases h
        refine Or.inr ⟨List.suffix_refl _, ?_⟩
        intro a ha
        simp only [List.head?_cons, Option.some.injEq] at ha
        rw [← ha]
        exact hd
      · rw [if_neg hd] at h
        by_cases hl : arg.length = 1
        · rw [if_pos hl] at h
          cases h
          exact Or.inl rfl
        · rw [if_neg hl] at h
          have lift : ∀ (tail : List String), tail <:+ rest →
              (pos = ["-"] ∨ (pos <:+ tail ∧ ∀ a, pos.head? = some a → char0 a ≠ '-')) →
              (pos = ["-"] ∨ (pos <:+ arg :: rest ∧ ∀ a, pos.head? = some a → char0 a ≠ '-')) := by
            intro tail ht hres
            rcases hres with hres | ⟨hs, hh⟩
            · exact Or.inl hres
            · exact Or.inr ⟨(hs.trans ht).trans (List.suffix_cons arg rest), hh⟩
          cases hf : flags.flags.find (flagName arg) with
          | none => simp [hf] at h
          | some flag =>
            simp only [hf] at h
            by_cases ha : flag.arg = true
            · rw [if_pos ha] at h
              cases rest with
              | nil => simp at h
              | cons v rest' =>
                simp only at h
                simp only [List.length_cons] at hlen
                exact lift rest' (List.suffix_cons v rest') (ih rest' (by omega) _ fl' pos h)
            · rw [if_neg ha] at h
              by_cases hv : flag.vec = true
              · rw [if_pos hv] at h
                have := vecLoop_length rest
                exact lift _ (vecLoop_suffix rest) (ih _ (by omega) _ fl' pos h)
              · rw [if_neg hv] at h
                exact lift rest (List.suffix_refl _) (ih rest hlen _ fl' pos h)

/-! ## Reading a map after an assignment -/

theorem StrMap.find_modify {V : Type} (m : StrMap V) (k : String) (f : V → V) (k' : String) :
    StrMap.find (StrMap.modify k f m) k' =
      if k' = k then (StrMap.find m k).map f else StrMap.find m k' := by
  induction m with
  | nil => simp [StrMap.modify, StrMap.find]
  | cons e rest ih =>
    obtain ⟨k0, v0⟩ := e
    by_cases h0 : k0 = k
    · subst h0
      by_cases h1 : k' = k0
      · subst h1
        simp [StrMap.modify, StrMap.find]
      · have h1' : ¬ k0 = k' := fun h => h1 h.symm
        simp [StrMap.modify, StrMap.find, h1, h1']
    · by_cases h1 : k' = k
      · subst h1
        simp [StrMap.modify, StrMap.find, h0, ih]
      · by_cases h2 : k0 = k'
        · simp [StrMap.modify, StrMap.find, h0, h1, h2]
        · simp [StrMap.modify, StrMap.find, h0, h1, h2, ih]

theorem StrMap.find_insertNew {V : Type} (m : StrMap V) (k : String) (v : V) (k' : String)
    (hk : StrMap.find m k = none) :
    StrMap.find (StrMap.insertNew k v m) k' = if k' = k then some v else StrMap.find m k' := by
  induction m with
  | nil =>
    by_cases h : k' = k
    · simp [StrMap.insertNew, StrMap.find, h]
    · have h' : ¬ k = k' := fun h2 => h h2.symm
      simp [StrMap.insertNew, StrMap.find, h, h']
  | cons e rest ih =>
    obtain ⟨k0, v0⟩ := e
    have h0 : ¬ k0 = k := by
      intro h
      simp [StrMap.find, h] at hk
    have hk' : StrMap.find rest k = none := by
      simpa [StrMap.find, h0] using hk
    cases hlt : keyLt k k0
    · by_cases h1 : k' = k
      · subst h1
        simp [StrMap.insertNew, StrMap.find, hlt, h0, ih hk']
      · by_cases h2 : k0 = k'
        · subst h2
          simp [StrMap.insertNew, StrMap.find, hlt, h1]
        · simp [StrMap.insertNew, StrMap.find, hlt, h1, h2, ih hk']
    · by_cases h1 : k' = k
      · subst h1
        simp [StrMap.insertNew, StrMap.find, hlt]
      · have h1' : ¬ k = k' := fun h2 => h1 h2.symm
        simp [StrMap.insertNew, StrMap.find, hlt, h1, h1']

/-- Reading a map after `m[k] = v`. -/
theorem StrMap.find_assign {V : Type} (m : StrMap V) (k : String) (v : V) (k' : String) :
    StrMap.find (StrMap.assign k v m) k' = if k' = k then some v else StrMap.find m k' := by
  unfold StrMap.assign
  cases hf : StrMap.find m k with
  | none =>
    simp only [Option.isSome_none, Bool.false_eq_true, if_false]
    exact StrMap.find_insertNew m k v k' hf
  | some v0 =>
    simp only [Option.isSome_some, if_true]
    rw [StrMap.find_modify, hf]
    rfl

/-! ## DupParamWalker against the specification -/

theorem filter_append_singleton (seen : List NodeRef) (n : NodeRef) (p : String) :
    (seen ++ [n]).filter (fun m => m.fullpath = p) =
      seen.filter (fun m => m.fullpath = p) ++ (if n.fullpath = p then [n] else []) := by
  by_cases h : n.fullpath = p
  · simp [List.filter_append, h]
  · simp [List.filter_append, h]

theorem getLast?_append_singleton (l : List NodeRef) (n : NodeRef) :
    (l ++ [n]).getLast? = some n := by
  induction l with
  | nil => rfl
  | cons a rest ih =>
    cases rest with
    | nil => rfl
    | cons b rest' =>
      rw [List.cons_append, List.cons_append, List.getLast?_cons_cons, ← List.cons_append]
      exact ih

/-- One visit of the walker against the specification, when the nodes seen
before at the same fullpath are of the kind of the node visited. -/
theorem dup_walk_step (errormsg : NodeRef → String → String) (w : DupParamWalker)
    (seen : List NodeRef) (n : NodeRef) (hinv : DupInv w seen)
    (hkind : ∀ m ∈ seen, m.fullpath = n.fullpath → m.type = n.type) :
    DupInv (w.walk errormsg n.fullpath n) (seen ++ [n]) ∧
    (w.walk errormsg n.fullpath n).errors = w.errors ++ DupSpec.errorsAt errormsg seen n := by
  obtain ⟨hfind, hdup⟩ := hinv
  have hf := hfind n.fullpath
  have hd := hdup n.fullpath
  have hmsg : ∀ m ∈ seen, m.fullpath = n.fullpath →
      errormsg m ((if n.type = NodeType.Field then "parameter" else "section") ++ " '"
        ++ n.fullpath ++ "' supplied multiple times") = DupSpec.message errormsg m := by
    intro m hm hp
    simp only [DupSpec.message, DupSpec.pfx, hkind m hm hp, hp]
  have hmsgn : errormsg n ((if n.type = NodeType.Field then "parameter" else "section") ++ " '"
        ++ n.fullpath ++ "' supplied multiple times") = DupSpec.message errormsg n := rfl
  -- the state after the visit, by the number of earlier visits of the fullpath
  cases hF : seen.filter (fun m => m.fullpath = n.fullpath) with
  | nil =>
    rw [hF] at hf hd
    simp only [List.getLast?_nil] at hf
    have hw : w.walk errormsg n.fullpath n = { w with _have := w._have.assign n.fullpath n } := by
      simp only [DupParamWalker.walk, hf]
    rw [hw]
    refine ⟨⟨?_, ?_⟩, ?_⟩
    · intro p
      simp only [StrMap.find_assign, filter_append_singleton]
      by_cases hp : p = n.fullpath
      · subst hp
        simp [hF]
      · have hp' : ¬ n.fullpath = p := fun h => hp h.symm
        simp [hp, hp', hfind p]
    · intro p
      simp only [filter_append_singleton]
      by_cases hp : n.fullpath = p
      · subst hp
        rw [hd, hF]
        simp
      · simp [hp, hdup p]
    · simp [DupSpec.errorsAt, hF]
  | cons first more =>
    have hfirst_mem : first ∈ seen ∧ first.fullpath = n.fullpath := by
      have : first ∈ seen.filter (fun m => m.fullpath = n.fullpath) := by simp [hF]
      simpa using List.mem_filter.mp this
    cases more with
    | nil =>
      rw [hF] at hf hd
      simp only [List.getLast?_singleton] at hf
      have hnd : n.fullpath ∉ w._duplicates := by
        rw [hd]; simp
      have hw : w.walk errormsg n.fullpath n =
          { errors := w.errors ++ [DupSpec.message errormsg first, DupSpec.message errormsg n]
            _duplicates := n.fullpath :: w._duplicates
            _have := w._have.assign n.fullpath n } := by
        simp only [DupParamWalker.walk, hf, hnd, not_false_eq_true, if_true,
          hmsg first hfirst_mem.1 hfirst_mem.2, hmsgn, List.append_assoc, List.singleton_append]
      rw [hw]
      refine ⟨⟨?_, ?_⟩, ?_⟩
      · intro p
        simp only [StrMap.find_assign, filter_append_singleton]
        by_cases hp : p = n.fullpath
        · subst hp
          simp [hF]
        · have hp' : ¬ n.fullpath = p := fun h => hp h.symm
          simp [hp, hp', hfind p]
      · intro p
        simp only [filter_append_singleton, List.mem_cons]
        by_cases hp : n.fullpath = p
        · subst hp
          simp [hF]
        · have hp' : ¬ p = n.fullpath := fun h => hp h.symm
          simp [hp, hp', hdup p]
      · simp [DupSpec.errorsAt, hF]
    | cons second more' =>
      rw [hF] at hf hd
      have hin : n.fullpath ∈ w._duplicates := by
        rw [hd]; simp
      obtain ⟨existing, hex⟩ : ∃ e, (first :: second :: more').getLast? = some e := by
        simp [List.getLast?_eq_getLast]
      rw [hex] at hf
      have hw : w.walk errormsg n.fullpath n =
          { errors := w.errors ++ [DupSpec.message errormsg n]
            _duplicates := w._duplicates
            _have := w._have.assign n.fullpath n } := by
        simp only [DupParamWalker.walk, hf, hin, not_true_eq_false, if_false, hmsgn]
      rw [hw]
      refine ⟨⟨?_, ?_⟩, ?_⟩
      · intro p
        simp only [StrMap.find_assign, filter_append_singleton]
        by_cases hp : p = n.fullpath
        · subst hp
          simp only [hF, if_true]
          rw [getLast?_append_singleton]
        · have hp' : ¬ n.fullpath = p := fun h => hp h.symm
          simp [hp, hp', hfind p]
      · intro p
        simp only [filter_append_singleton]
        by_cases hp : n.fullpath = p
        · subst hp
          simp [hF, hin]
        · simp [hp, hdup p]
      · simp [DupSpec.errorsAt, hF]


theorem dup_run_from (errormsg : NodeRef → String → String) (visits : List NodeRef) :
    ∀ (w : DupParamWalker) (seen : List NodeRef), DupInv w seen →
      (∀ a ∈ seen ++ visits, ∀ b ∈ seen ++ visits, a.fullpath = b.fullpath → a.type = b.type) →
      (visits.foldl (fun w n => w.walk errormsg n.fullpath n) w).errors =
        w.errors ++ DupSpec.errors errormsg seen visits := by
  induction visits with
  | nil =>
    intro w seen _ _
    simp [DupSpec.errors]
  | cons n rest ih =>
    intro w seen hinv hkind
    have hstep := dup_walk_step errormsg w seen n hinv (fun m hm hp =>
      hkind m (List.mem_append_left _ hm) n
        (List.mem_append_right _ (List.mem_cons_self _ _)) hp)
    have hk' : ∀ a ∈ (seen ++ [n]) ++ rest, ∀ b ∈ (seen ++ [n]) ++ rest,
        a.fullpath = b.fullpath → a.type = b.type := by
      intro a ha b hb
      apply hkind a _ b _
      · simpa using ha
      · simpa using hb
    rw [List.foldl_cons, ih _ (seen ++ [n]) hstep.1 hk', hstep.2, DupSpec.errors,
      List.append_assoc]

/-- The part of C4 that holds: on visits in which equal fullpaths come with equal
kinds, the errors of the walker are those the specification lists. -/
theorem dup_walker_refines_spec (errormsg : NodeRef → String → String) (visits : List NodeRef)
    (hkind : ∀ a ∈ visits, ∀ b ∈ visits, a.fullpath = b.fullpath → a.type = b.type) :
    (DupParamWalker.run errormsg visits).errors = DupSpec.errors errormsg [] visits := by
  have hinv : DupInv DupParamWalker.new [] := by
    constructor
    · intro p; rfl
    · intro p; simp [DupParamWalker.new]
  have := dup_run_from errormsg visits DupParamWalker.new [] hinv (by simpa using hkind)
  simpa [DupParamWalker.run, DupParamWalker.new] using this

/-- In `validate`, which walks Fields only, the walker reports what the
specification lists. -/
theorem dup_walker_on_fields (errormsg : NodeRef → String → String) (root : Node) :
    (DupParamWalker.run errormsg (root.walk .Field "")).errors =
      DupSpec.errors errormsg [] (root.walk .Field "") :=
  dup_walker_refines_spec errormsg _ (fun a ha b hb _ => by
    rw [walk_field_type "" root a ha, walk_field_type "" root b hb])

/-! ## The flag -color of diff -/

theorem StrMap.modify_comm {V : Type} (m : StrMap V) (k k' : String) (f g : V → V)
    (hfg : k = k' → ∀ x, f (g x) = g (f x)) :
    StrMap.modify k f (StrMap.modify k' g m) = StrMap.modify k' g (StrMap.modify k f m) := by
  by_cases hkk : k = k'
  · subst hkk
    induction m with
    | nil => rfl
    | cons e rest ih =>
      obtain ⟨k0, v0⟩ := e
      by_cases h1 : k0 = k
      · simp [StrMap.modify, h1, hfg rfl v0]
      · simp [StrMap.modify, h1, ih]
  · have hkk' : ¬ k' = k := fun h => hkk h.symm
    induction m with
    | nil => rfl
    | cons e rest ih =>
      obtain ⟨k0, v0⟩ := e
      by_cases h1 : k0 = k
      · subst h1
        simp [StrMap.modify, hkk]
      · by_cases h2 : k0 = k'
        · subst h2
          simp [StrMap.modify, hkk']
        · simp [StrMap.modify, h1, h2, ih]

theorem Flags.update_comm (fl : Flags) (k k' : String) (f g : Flag → Flag)
    (hfg : k = k' → ∀ x, f (g x) = g (f x)) :
    (fl.update k' g).update k f = (fl.update k f).update k' g := by
  simp only [Flags.update, StrMap.modify_comm fl.flags k k' f g hfg]

/-- Marking a flag as given before parsing is marking it after parsing. -/
theorem parseOpts_update_have (c : String) (n : Nat) :
    ∀ (args : List String), args.length ≤ n → ∀ (fl : Flags),
      parseOpts args (fl.update c (fun f => { f with have_ := true })) =
        match parseOpts args fl with
        | .ok (fl', pos) => .ok (fl'.update c (fun f => { f with have_ := true }), pos)
        | .error e => .error e := by
  induction n with
  | zero =>
    intro args hlen fl
    have : args = [] := List.length_eq_zero.mp (Nat.le_zero.mp hlen)
    subst this
    rfl
  | succ n ih =>
    intro args hlen fl
    cases args with
    | nil => rfl
    | cons arg rest =>
      simp only [List.length_cons, Nat.add_le_add_iff_right] at hlen
      rw [parseOpts_cons, parseOpts_cons]
      by_cases hd : char0 arg ≠ '-'
      · rw [if_pos hd, if_pos hd]
      · rw [if_neg hd, if_neg hd]
        by_cases hl : arg.length = 1
        · rw [if_pos hl, if_pos hl]
        · rw [if_neg hl, if_neg hl]
          have hfind : (fl.update c (fun f => { f with have_ := true })).flags.find (flagName arg)
              = if flagName arg = c then
                  (fl.flags.find c).map (fun f => { f with have_ := true })
                else fl.flags.find (flagName arg) := StrMap.find_modify _ _ _ _
          cases hf : fl.flags.find (flagName arg) with
          | none =>
            have : (fl.update c (fun f => { f with have_ := true })).flags.find (flagName arg)
                = none := (Flags.find_update_eq_none fl c _ _).mpr hf
            simp only [this]
          | some flag =>
            obtain ⟨flag', hf', harg, hvec⟩ : ∃ flag',
                (fl.update c (fun f => { f with have_ := true })).flags.find (flagName arg)
                  = some flag' ∧ flag'.arg = flag.arg ∧ flag'.vec = flag.vec := by
              by_cases hc : flagName arg = c
              · rw [hfind, if_pos hc, ← hc, hf]
                exact ⟨_, rfl, rfl, rfl⟩
              · rw [hfind, if_neg hc, hf]
                exact ⟨_, rfl, rfl, rfl⟩
            simp only [hf', harg, hvec]
            by_cases ha : flag.arg = true
            · rw [if_pos ha, if_pos ha]
              cases rest with
              | nil => rfl
              | cons v rest' =>
                simp only [List.length_cons] at hlen
                simp only []
                rw [Flags.update_comm fl (flagName arg) c
                  (fun f => { f with have_ := true, val := v })
                  (fun f => { f with have_ := true }) (fun _ _ => rfl)]
                exact ih rest' (by omega) _
            · rw [if_neg ha, if_neg ha]
              by_cases hv : flag.vec = true
              · rw [if_pos hv, if_pos hv]
                have := vecLoop_length rest
                rw [Flags.update_comm fl (flagName arg) c
                  (fun f => { f with have_ := true, vec_val := f.vec_val ++ (vecLoop rest).1 })
                  (fun f => { f with have_ := true }) (fun _ _ => rfl)]
                exact ih _ (by omega) _
              · rw [if_neg hv, if_neg hv]
                rw [Flags.update_comm fl (flagName arg) c
                  (fun f => { f with have_ := true })
                  (fun f => { f with have_ := true }) (fun _ _ => rfl)]
                exact ih rest hlen _


theorem Flags.have__update_of_ne (fl : Flags) (c k : String) (f : Flag → Flag) (h : k ≠ c) :
    (fl.update c f).have_ k = fl.have_ k := by
  simp only [Flags.have_, Flags.update, StrMap.count, StrMap.find_modify, if_neg h]

theorem Flags.vecVal_update_of_ne (fl : Flags) (c k : String) (f : Flag → Flag) (h : k ≠ c) :
    (fl.update c f).vecVal k = fl.vecVal k := by
  simp only [Flags.vecVal, Flags.update, StrMap.find_modify, if_neg h]

theorem foldl_usageLine_modify (m : StrMap Flag) (c : String) (init : String) :
    (StrMap.modify c (fun f => { f with have_ := true }) m).foldl
        (fun ss pair => ss ++ Flags.usageLine pair.1 pair.2) init =
      m.foldl (fun ss pair => ss ++ Flags.usageLine pair.1 pair.2) init := by
  induction m generalizing init with
  | nil => rfl
  | cons e rest ih =>
    obtain ⟨k0, v0⟩ := e
    by_cases h : k0 = c
    · simp only [StrMap.modify, h, if_true, List.foldl_cons]
      rfl
    · simp only [StrMap.modify, h, if_false, List.foldl_cons, ih]

theorem Flags.usage_update_have (fl : Flags) (c : String) :
    (fl.update c (fun f => { f with have_ := true })).usage = fl.usage := by
  simp only [Flags.usage, Flags.update, foldl_usageLine_modify]

/-- The flag `-color` in front of the arguments of `diff` changes nothing: the
outcome is the outcome without it, so the report has the colours `-C` asks for
or none. -/
theorem diff_color_flag_no_effect (lib : Lib) (args : List String) (w : World) :
    diff lib ("-color" :: args) w = diff lib args w := by
  have h0 : parseOpts ("-color" :: args) diffFlags =
      parseOpts args (diffFlags.update "color" (fun f => { f with have_ := true })) := by
    rw [parseOpts_cons]
    rfl
  unfold diff
  rw [h0, parseOpts_update_have "color" args.length args (Nat.le_refl _)]
  cases parseOpts args diffFlags with
  | error e => rfl
  | ok r =>
    obtain ⟨fl', pos⟩ := r
    simp only [diffUsageError, diffLeftFiles, diffRightFiles, Flags.usage_update_have,
      Flags.have__update_of_ne fl' "color" "h" _ (by decide),
      Flags.have__update_of_ne fl' "color" "help" _ (by decide),
      Flags.have__update_of_ne fl' "color" "left" _ (by decide),
      Flags.have__update_of_ne fl' "color" "right" _ (by decide),
      Flags.have__update_of_ne fl' "color" "C" _ (by decide),
      Flags.have__update_of_ne fl' "color" "v" _ (by decide),
      Flags.have__update_of_ne fl' "color" "common" _ (by decide),
      Flags.vecVal_update_of_ne fl' "color" "left" _ (by decide),
      Flags.vecVal_update_of_ne fl' "color" "right" _ (by decide)]

/-! ## The indices parseOpts reads (claim C11) -/

theorem vecLoop_lengths (xs : List String) :
    (vecLoop xs).1.length + (vecLoop xs).2.length = xs.length := by
  induction xs with
  | nil => simp [vecLoop]
  | cons x rest ih =>
    unfold vecLoop
    by_cases h : char0 x ≠ '-'
    · rw [if_pos h]
      simp only [List.length_cons]
      omega
    · rw [if_neg h]
      simp

/-- The look-ahead of a vector flag stays inside the argument list: every index
the loop reads is below `argc`. -/
theorem vecLoopReads_lt (xs : List String) :
    ∀ (i j : Nat), j ∈ vecLoopReads i xs → j < i + 1 + xs.length := by
  induction xs with
  | nil =>
    intro i j hj
    simp [vecLoopReads] at hj
  | cons x rest ih =>
    intro i j hj
    unfold vecLoopReads at hj
    by_cases h : char0 x ≠ '-'
    · rw [if_pos h] at hj
      simp only [List.mem_cons] at hj
      simp only [List.length_cons]
      rcases hj with hj | hj | hj
      · omega
      · omega
      · have := ih (i + 1) j hj
        omega
    · rw [if_neg h] at hj
      simp only [List.mem_singleton] at hj
      simp only [List.length_cons]
      omega

/-- What `parseOpts` reads from loop index `i` on: nothing beyond `argv[argc]`,
and `argv[argc]` exactly when the last argument is a flag that takes an argument. -/
theorem parseLoopReads_spec (fuel : Nat) :
    ∀ (i : Nat) (flags : Flags) (rest : List String), rest.length < fuel →
      (∀ j ∈ parseLoopReads fuel i flags rest, j ≤ i + rest.length) ∧
      (i + rest.length ∈ parseLoopReads fuel i flags rest ↔
        parseLoop fuel flags rest = .error .argvPastEnd) := by
  induction fuel with
  | zero => intro i flags rest h; omega
  | succ n ih =>
    intro i flags rest hlen
    cases rest with
    | nil => simp [parseLoopReads, parseLoop]
    | cons arg rest =>
      simp only [List.length_cons] at hlen ⊢
      unfold parseLoopReads parseLoop
      by_cases hd : char0 arg ≠ '-'
      · simp only [if_pos hd]
        constructor
        · intro j hj
          simp only [List.mem_cons, List.mem_range'_1] at hj
          omega
        · simp only [List.mem_cons, List.mem_range'_1, reduceCtorEq, iff_false]
          omega
      · simp only [if_neg hd]
        by_cases hl : arg.length = 1
        · simp only [if_pos hl, List.mem_singleton, reduceCtorEq, iff_false]
          constructor
          · intro j hj; omega
          · omega
        · simp only [if_neg hl]
          cases hf : flags.flags.find (flagName arg) with
          | none =>
            constructor
            · intro j hj
              have : j = i := by simpa using hj
              omega
            · have : ¬ i + (rest.length + 1) = i := by omega
              simp [this]
          | some flag =>
            simp only []
            by_cases ha : flag.arg = true
            · simp only [if_pos ha]
              cases rest with
              | nil =>
                simp only [List.length_nil, List.mem_cons, List.mem_singleton, iff_true]
                constructor
                · intro j hj
                  have : j = i ∨ j = i + 1 := by simpa using hj
                  omega
                · simp
              | cons v rest' =>
                simp only [List.length_cons] at hlen ⊢
                obtain ⟨h1, h2⟩ := ih (i + 2)
                  (flags.update (flagName arg) (fun f => { f with have_ := true, val := v }))
                  rest' (by omega)
                have e : i + 2 + rest'.length = i + (rest'.length + 1 + 1) := by omega
                rw [e] at h1 h2
                constructor
                · intro j hj
                  simp only [List.mem_cons] at hj
                  rcases hj with hj | hj | hj
                  · omega
                  · omega
                  · exact h1 j hj
                · rw [← h2]
                  simp only [List.mem_cons]
                  constructor
                  · rintro (h | h | h)
                    · omega
                    · omega
                    · exact h
                  · exact fun h => Or.inr (Or.inr h)
            · simp only [if_neg ha]
              by_cases hv : flag.vec = true
              · simp only [if_pos hv]
                have hvl := vecLoop_lengths rest
                obtain ⟨h1, h2⟩ := ih (i + 1 + (vecLoop rest).1.length)
                  (flags.update (flagName arg)
                    (fun f => { f with have_ := true, vec_val := f.vec_val ++ (vecLoop rest).1 }))
                  (vecLoop rest).2 (by omega)
                have e : i + 1 + (vecLoop rest).1.length + (vecLoop rest).2.length
                    = i + (rest.length + 1) := by omega
                rw [e] at h1 h2
                have hvr := vecLoopReads_lt rest i
                constructor
                · intro j hj
                  simp only [List.mem_cons, List.mem_append] at hj
                  rcases hj with hj | hj | hj
                  · omega
                  · have := hvr j hj
                    omega
                  · exact h1 j hj
                · rw [← h2]
                  simp only [List.mem_cons, List.mem_append]
                  constructor
                  · rintro (h | h | h)
                    · omega
                    · have := hvr _ h
                      omega
                    · exact h
                  · exact fun h => Or.inr (Or.inr h)
              · simp only [if_neg hv]
                obtain ⟨h1, h2⟩ := ih (i + 1)
                  (flags.update (flagName arg) (fun f => { f with have_ := true }))
                  rest (by omega)
                have e : i + 1 + rest.length = i + (rest.length + 1) := by omega
                rw [e] at h1 h2
                constructor
                · intro j hj
                  simp only [List.mem_cons] at hj
                  rcases hj with hj | hj
                  · omega
                  · exact h1 j hj
                · rw [← h2]
                  simp only [List.mem_cons]
                  constructor
                  · rintro (h | h)
                    · omega
                    · exact h
                  · exact fun h => Or.inr h

/-- The part of C11 that holds: `parseOpts` reads no index above `argc`, and it
reads `argv[argc]` exactly in the runs that end in the read `flag.val = argv[i]`
past the last argument. -/
theorem parseOptsReads_spec (argv : List String) (flags : Flags) :
    (∀ j ∈ parseOptsReads argv flags, j ≤ argv.length) ∧
    (argv.length ∈ parseOptsReads argv flags ↔ parseOpts argv flags = .error .argvPastEnd) := by
  have := parseLoopReads_spec (argv.length + 1) 0 flags argv (Nat.lt_succ_self _)
  simpa [parseOptsReads, parseOpts] using this


/-- C11 fails on the code: for `hit format -style` (`argc` is 1) `parseOpts`
reads `argv[0]` and then, for the value of the flag, `argv[1]`, the element past
the end of the argument list; the read is not guarded, and `format` does not
return. -/
theorem parseOpts_reads_past_end :
    parseOptsReads ["-style"] formatFlags = [0, 1] ∧
    ¬ (∀ j ∈ parseOptsReads ["-style"] formatFlags, j < ["-style"].length) ∧
    parseOpts ["-style"] formatFlags = .error .argvPastEnd ∧
    (format sampleLib ["-style"] sampleWorld).code? = none :=
  ⟨by decide, by decide, rfl, by decide⟩

/-! ## DupParamWalker: the errors as claimed (claim C4) -/

theorem DupSpec.errorsAt_eq_map (errormsg : NodeRef → String → String) (seen : List NodeRef)
    (n : NodeRef) :
    DupSpec.errorsAt errormsg seen n =
      (DupSpec.reportsAt seen n).map (DupSpec.message errormsg) := by
  unfold DupSpec.errorsAt DupSpec.reportsAt
  split <;> rfl

theorem DupSpec.errors_eq_map (errormsg : NodeRef → String → String) (visits : List NodeRef) :
    ∀ seen, DupSpec.errors errormsg seen visits =
      (DupSpec.reports seen visits).map (DupSpec.message errormsg) := by
  induction visits with
  | nil => intro seen; rfl
  | cons n rest ih =>
    intro seen
    simp only [DupSpec.errors, DupSpec.reports, List.map_append, ih,
      DupSpec.errorsAt_eq_map]

theorem DupSpec.reports_append (pre : List NodeRef) :
    ∀ (seen rest : List NodeRef), DupSpec.reports seen (pre ++ rest) =
      DupSpec.reports seen pre ++ DupSpec.reports (seen ++ pre) rest := by
  induction pre with
  | nil => intro seen rest; simp [DupSpec.reports]
  | cons a pre ih =>
    intro seen rest
    have hc : (a :: pre) ++ rest = a :: (pre ++ rest) := rfl
    have hs : seen ++ a :: pre = (seen ++ [a]) ++ pre := by simp
    rw [hc, DupSpec.reports, DupSpec.reports, ih, hs]
    simp only [List.append_assoc]

/-- The nodes reported at one visit are at the fullpath of the node visited. -/
theorem DupSpec.reportsAt_fullpath (seen : List NodeRef) (n m : NodeRef)
    (hm : m ∈ DupSpec.reportsAt seen n) : m.fullpath = n.fullpath := by
  unfold DupSpec.reportsAt at hm
  split at hm
  · simp at hm
  · rename_i first hF
    have hfirst : first ∈ seen.filter (fun m => m.fullpath = n.fullpath) := by simp [hF]
    have := (List.mem_filter.mp hfirst).2
    simp only [decide_eq_true_eq] at this
    simp only [List.mem_cons, List.mem_singleton, List.not_mem_nil, or_false] at hm
    rcases hm with rfl | rfl
    · exact this
    · rfl
  · simp only [List.mem_singleton] at hm
    rw [hm]


/-- The nodes reported at one fullpath, by the number of visits of that
fullpath among `seen`. -/
theorem DupSpec.reports_filter (p : String) (visits : List NodeRef) :
    ∀ seen, (DupSpec.reports seen visits).filter (fun m => m.fullpath = p) =
      match seen.filter (fun m => m.fullpath = p) with
      | [] =>
        if 2 ≤ (visits.filter (fun m => m.fullpath = p)).length
        then visits.filter (fun m => m.fullpath = p) else []
      | [first] =>
        if visits.filter (fun m => m.fullpath = p) = [] then []
        else first :: visits.filter (fun m => m.fullpath = p)
      | _ :: _ :: _ => visits.filter (fun m => m.fullpath = p) := by
  induction visits with
  | nil =>
    intro seen
    simp only [DupSpec.reports, List.filter_nil]
    split <;> simp
  | cons n rest ih =>
    intro seen
    rw [DupSpec.reports, List.filter_append, ih (seen ++ [n]), filter_append_singleton]
    by_cases hp : n.fullpath = p
    · -- the visited node is at the fullpath `p`
      have hall : (DupSpec.reportsAt seen n).filter (fun m => m.fullpath = p)
          = DupSpec.reportsAt seen n := by
        apply List.filter_eq_self.mpr
        intro m hm
        simp only [decide_eq_true_eq]
        rw [DupSpec.reportsAt_fullpath seen n m hm, hp]
      rw [hall, if_pos hp, List.filter_cons_of_pos (by simpa using hp)]
      unfold DupSpec.reportsAt
      rw [hp]
      cases hF : seen.filter (fun m => m.fullpath = p) with
      | nil =>
        simp only [List.nil_append, List.length_cons]
        cases hv : rest.filter (fun m => decide (m.fullpath = p)) with
        | nil => simp
        | cons b more => simp
      | cons first more =>
        cases more with
        | nil => simp
        | cons second more' => simp
    · -- the visited node is elsewhere
      have hnone : (DupSpec.reportsAt seen n).filter (fun m => m.fullpath = p) = [] := by
        apply List.filter_eq_nil_iff.mpr
        intro m hm
        simp only [decide_eq_true_eq]
        rw [DupSpec.reportsAt_fullpath seen n m hm]
        exact hp
      rw [hnone, if_neg hp, List.filter_cons_of_neg (by simpa using hp)]
      simp

/-- C4: on every sequence of visits in which equal fullpaths come with equal
kinds (every walk over Fields, the only walk main.cc runs the walker on), the
error list is one message per reported node, prefixed `parameter` or `section`
by the kind of that node; at a fullpath visited k times the reported nodes are
none for k = 1 and, for k >= 2, the k nodes in visit order; and the visit of a
node adds, right after the errors of the visits before it, nothing at a first
occurrence, the first node seen and then the node at the second occurrence, and
the node alone from the third on. -/
theorem dup_walker_errors_as_claimed (errormsg : NodeRef → String → String)
    (visits : List NodeRef)
    (hkind : ∀ a ∈ visits, ∀ b ∈ visits, a.fullpath = b.fullpath → a.type = b.type) :
    (DupParamWalker.run errormsg visits).errors =
      (DupSpec.reports [] visits).map (fun n =>
        errormsg n ((if n.type = NodeType.Field then "parameter" else "section") ++ " '"
          ++ n.fullpath ++ "' supplied multiple times")) ∧
    (∀ p, (DupSpec.reports [] visits).filter (fun m => m.fullpath = p) =
      if 2 ≤ (visits.filter (fun m => m.fullpath = p)).length
      then visits.filter (fun m => m.fullpath = p) else []) ∧
    (∀ pre n post, visits = pre ++ n :: post →
      DupSpec.reports [] visits =
        DupSpec.reports [] pre ++ DupSpec.reportsAt pre n ++ DupSpec.reports (pre ++ [n]) post) := by
  refine ⟨?_, ?_, ?_⟩
  · rw [dup_walker_refines_spec errormsg visits hkind, DupSpec.errors_eq_map]
    rfl
  · intro p
    have := DupSpec.reports_filter p visits []
    simpa using this
  · intro pre n post hv
    rw [hv, DupSpec.reports_append pre [] (n :: post), DupSpec.reports, List.nil_append,
      List.append_assoc]

/-- Witness of C4: the Field walk of the document with `x/p` at lines 2 and 5
reports the Field of line 2 and then the Field of line 5. -/
theorem dup_walker_errors_as_claimed_witness :
    (∀ a ∈ (sampleDupTree "dup.i").walk .Field "", ∀ b ∈ (sampleDupTree "dup.i").walk .Field "",
      a.fullpath = b.fullpath → a.type = b.type) ∧
    DupSpec.reports [] ((sampleDupTree "dup.i").walk .Field "") =
      [⟨.Field, "x/p", "1", "dup.i", 2⟩, ⟨.Field, "x/p", "2", "dup.i", 5⟩] ∧
    (DupParamWalker.run sampleLib.errormsg ((sampleDupTree "dup.i").walk .Field "")).errors =
      (DupSpec.reports [] ((sampleDupTree "dup.i").walk .Field "")).map (fun n =>
        sampleLib.errormsg n ((if n.type = NodeType.Field then "parameter" else "section")
          ++ " '" ++ n.fullpath ++ "' supplied multiple times")) :=
  ⟨by decide, by decide,
    (dup_walker_errors_as_claimed sampleLib.errormsg ((sampleDupTree "dup.i").walk .Field "")
      (by decide)).1⟩

end Hit
